import Mathlib

/-!
The `.deb` packager of nfpm.

A shallow embedding of `deb/deb.go` and `deb/deb_sign.go` (package `deb`) and of the
`Info` record of `nfpm.go`, followed by theorems about the archive assembly.

Conventions of the embedding.

* A Go `string` and a Go `[]byte` are both byte sequences; they are embedded as `List Char`
  (`Str`), one `Char` per byte.  Every literal of the program is ASCII.
* A Go `map[string]string` that the program ranges over is embedded as the list of its
  `(key, value)` pairs in the order of that traversal.
* Results of the standard library and of third party packages that depend on the outside
  world (the file system, the clock, the output sink, OpenPGP) are fields of `Env`.
* `pathsToCreate` contains an unbounded `for` loop; it is embedded with a `fuel` argument
  that bounds the number of iterations, and `Res.hang` is the outcome "has not returned".
-/

namespace Nfpm

/-- A Go string or byte slice. -/
abbrev Str := List Char

/-! ## Standard library: `strings`, `strconv`, `encoding/hex`, `path/filepath` -/

/-- Go `strings.Join(elems, sep)`. -/
def Join (elems : List Str) (sep : Str) : Str :=
  sep.intercalate elems

/-- Go `strings.Trim(s, " ")`: drops every leading and every trailing space. -/
def TrimSpaces (s : Str) : Str :=
  ((s.dropWhile (fun c => c == ' ')).reverse.dropWhile (fun c => c == ' ')).reverse

/-- Decimal rendering of a 64 bit integer, as `%d` and the template engine print it. -/
def itoa : Int → Str
  | Int.ofNat n => Nat.toDigits 10 n
  | Int.negSucc n => '-' :: Nat.toDigits 10 (n + 1)

/-- Go `hex.EncodeToString` and the verb `%x` on a byte slice: two lower case digits per
byte. -/
def hexEncode (b : Str) : Str :=
  (b.map (fun c => [Nat.digitChar (c.toNat / 16 % 16), Nat.digitChar (c.toNat % 16)])).flatten

/-- Two's complement wrap-around of `int64` arithmetic. -/
def wrap64 (x : Int) : Int :=
  (x + 2 ^ 63) % 2 ^ 64 - 2 ^ 63

/-- The name `..` of the parent directory. -/
def dotdot : Str := ['.', '.']

/-- One path element of the scan of Go `filepath.Clean` (Unix).  `out` holds the elements
kept so far, the last one first.  An empty element and `.` are dropped; `..` removes the
last kept element when that is an ordinary name, is dropped at the root of a rooted path,
and is kept otherwise; every other element is kept. -/
def cleanElem (rooted : Bool) (out : List Str) (e : Str) : List Str :=
  if e = [] ∨ e = ['.'] then out
  else if e = dotdot then
    match out with
    | [] => if rooted then [] else [dotdot]
    | top :: rest => if top = dotdot then dotdot :: top :: rest else rest
  else e :: out

/-- Go `filepath.Clean` (Unix, separator `/`): the shortest path equivalent to `path` by
purely lexical processing.  The empty path becomes `.`. -/
def Clean (path : Str) : Str :=
  if path = [] then ['.']
  else
    let rooted : Bool := path.head? = some '/'
    let out := ((path.splitOn '/').foldl (cleanElem rooted) []).reverse
    if rooted then '/' :: Join out ['/']
    else if out = [] then ['.']
    else Join out ['/']

/-- Go `filepath.Dir` (Unix): `Clean` of `path` up to and including its last separator. -/
def Dir (path : Str) : Str :=
  Clean (path.reverse.dropWhile (fun c => c != '/')).reverse

/-! ## `nfpm.Info` -/

/-- The package description `nfpm.Info`.  `Files` and `ConfigFiles` are maps from source
path to destination path, listed in traversal order.  `DebSigningKey` and
`DebSigningKeyPassword` are the two fields that `deb_sign.go` reads. -/
structure Info where
  Name : Str := []
  Arch : Str := []
  Platform : Str := []
  Version : Str := []
  Section : Str := []
  Priority : Str := []
  Replaces : List Str := []
  Provides : List Str := []
  Depends : List Str := []
  Recommends : List Str := []
  Suggests : List Str := []
  Conflicts : List Str := []
  Maintainer : Str := []
  Description : Str := []
  Vendor : Str := []
  Homepage : Str := []
  License : Str := []
  Bindir : Str := []
  Files : List (Str × Str) := []
  ConfigFiles : List (Str × Str) := []
  DebSigningKey : Str := []
  DebSigningKeyPassword : Str := []

namespace Deb

/-! ## Outcomes -/

/-- The error returns of package `deb`, one per `return ..., err` site. -/
inductive Err where
  /-- Message `could not add file to the archive`: the source cannot be opened or inspected -/
  | openFile
  /-- Message `cannot write header of ... to data.tar.gz` -/
  | dataHeader
  /-- Message `failed to copy` -/
  | copy
  /-- Message `failed to create folder` -/
  | folder
  /-- Message `cannot write header of ... file to control.tar.gz` -/
  | controlHeader
  /-- Message `cannot write ar header to deb file` -/
  | arGlobalHeader
  /-- Message `cannot write file header` -/
  | arHeader
  /-- Error of `w.Write(body)` in `addArFile` -/
  | arWrite
  /-- Message `cannot decode private key (expecting ascii-armor)` -/
  | armor
  /-- Message `cannot read packets of private key` -/
  | packets
  /-- Message `no packet with private key found` -/
  | noPrivateKey
  /-- Message `no packet with user id found` -/
  | noUserId
  /-- Message `cannot decrypt private key, check password` -/
  | decrypt
  /-- Message `cannot create signature` -/
  | createSignature
  deriving DecidableEq, Repr

/-- Outcome of a call: a normal return, an error return, a run-time panic, or no return
within the fuel. -/
inductive Res (α : Type) where
  | ok (a : α)
  | error (e : Err)
  | panic
  | hang
  deriving DecidableEq, Repr

/-- Sequencing of outcomes: everything but `ok` ends the computation. -/
def Res.bind {α β : Type} (r : Res α) (f : α → Res β) : Res β :=
  match r with
  | Res.ok a => f a
  | Res.error e => Res.error e
  | Res.panic => Res.panic
  | Res.hang => Res.hang

/-! ## Archives -/

/-- Values of `tar.Header.Typeflag` that occur; `unset` is the zero value of a header
literal that does not name the field, which the tar writer replaces when it stores the
header (see `storedTypeflag`). -/
inductive Typeflag where
  | unset
  | TypeReg
  | TypeDir
  deriving DecidableEq, Repr

/-- The fields of `tar.Header` that the program sets, `ModTime` (the wall clock) and
`Format` (always `tar.FormatGNU`) apart. -/
structure TarHeader where
  Name : Str
  Size : Nat
  Mode : Nat
  Typeflag : Typeflag
  deriving DecidableEq, Repr

/-- An entry of a tar archive: the header given to `WriteHeader` and the bytes written
after it. -/
structure TarEntry where
  hdr : TarHeader
  body : Str
  deriving DecidableEq, Repr

/-- The fields of `ar.Header` that the program sets, `ModTime` apart. -/
structure ArHeader where
  Name : Str
  Size : Nat
  Mode : Nat
  deriving DecidableEq, Repr

/-- What reaches the output sink through the `ar.Writer`. -/
inductive ArItem where
  | globalHeader
  | header (h : ArHeader)
  | body (b : Str)
  deriving DecidableEq, Repr

/-! ## The outside world -/

/-- A source file as `os.OpenFile` and `Stat` show it; `Size()` is the length of the
content. -/
structure SrcFile where
  IsDir : Bool
  Mode : Nat
  content : Str
  /-- reading the content fails -/
  readErr : Bool := false

/-- An OpenPGP private key packet. -/
structure PrivateKey where
  Encrypted : Bool
  keyId : Nat
  deriving DecidableEq, Repr

/-- The packets that `parseKey` tells apart. -/
inductive Packet where
  | PrivateKey (k : Deb.PrivateKey)
  | UserId (Id : Str)
  | other
  deriving DecidableEq, Repr

/-- One result of `reader.Next()` before `io.EOF`: a packet or a read error. -/
inductive Next where
  | pkt (p : Packet)
  | err
  deriving DecidableEq, Repr

/-- Everything the packager obtains from outside the program. -/
structure Env where
  /-- Result of `os.OpenFile` then `Stat`; `none` when either fails -/
  openFile : Str → Option SrcFile
  /-- whether `tar.Writer.WriteHeader` accepts a header -/
  tarHeaderOk : TarHeader → Bool
  /-- the bytes of a closed gzip-compressed tar archive with the given entries -/
  targz : List TarEntry → Str
  /-- MD5 digest -/
  md5 : Str → Str
  /-- SHA-1 digest -/
  sha1 : Str → Str
  /-- whether the n-th write to the output sink succeeds (n counts from 0) -/
  sinkOk : Nat → Bool
  /-- Value of `time.Now().Format("Mon Jan 2 15:04:05 2006")` -/
  now : Str
  /-- Result of `armor.Decode` and the packets read from its body up to `io.EOF`; `none` when the
  armor cannot be decoded -/
  armorDecode : Str → Option (List Next)
  /-- whether `private.Decrypt(passphrase)` succeeds -/
  decryptOk : PrivateKey → Str → Bool
  /-- whether `clearsign.Encode` returns an encoder -/
  encodeOk : PrivateKey → Bool
  /-- the bytes that `clearsign` has put in the buffer after the given text was written to
  the encoder and the encoder was closed -/
  clearsign : PrivateKey → Str → Str
  /-- whether `encoder.Close()`, which computes the signature, succeeds -/
  closeOk : PrivateKey → Str → Bool

/-! ## `deb.go`: the data archive -/

/-- The loop of `pathsToCreate`: `base = filepath.Dir(base)` until `base == "."`,
collecting every other value. -/
def pathsLoop : Nat → Str → List Str → Option (List Str)
  | 0, _, _ => none
  | fuel + 1, base, paths =>
    let base := Dir base
    if base = ['.'] then some paths
    else pathsLoop fuel base (paths ++ [base])

/-- The function `pathsToCreate`: the directories to create for `dst`, outermost first.
`dst[1:]` panics on the empty string. -/
def pathsToCreate (fuel : Nat) (dst : Str) : Res (List Str) :=
  match dst with
  | [] => Res.panic
  | _ :: base =>
    match pathsLoop fuel base [] with
    | none => Res.hang
    | some paths => Res.ok paths.reverse

/-- The loop body of `createTree` over the paths still to visit. -/
def createTreeLoop (env : Env) : List Str → List TarEntry → List Str →
    Res (List TarEntry × List Str)
  | [], tarw, created => Res.ok (tarw, created)
  | path :: rest, tarw, created =>
    if path ∈ created then createTreeLoop env rest tarw created
    else
      let hdr : TarHeader :=
        { Name := path ++ ['/'], Size := 0, Mode := 0o755, Typeflag := Typeflag.TypeDir }
      if env.tarHeaderOk hdr then
        createTreeLoop env rest (tarw ++ [{ hdr := hdr, body := [] }]) (created ++ [path])
      else Res.error Err.folder

/-- The function `createTree`: writes a directory entry for every path of
`pathsToCreate dst` that is not in `created`, and records it there. -/
def createTree (env : Env) (fuel : Nat) (tarw : List TarEntry) (dst : Str)
    (created : List Str) : Res (List TarEntry × List Str) :=
  (pathsToCreate fuel dst).bind (fun paths => createTreeLoop env paths tarw created)

/-- The line of the md5sums listing: `fmt.Fprintf(md5w, "%x  %s\n", digest, name)`. -/
def md5Line (digest name : Str) : Str :=
  hexEncode digest ++ [' ', ' '] ++ name ++ ['\n']

/-- The type flag that `tar.Writer.WriteHeader` stores for a header whose type flag is
unset: `TypeDir` for a name that ends in a slash, `TypeReg` otherwise. -/
def storedTypeflag (name : Str) : Typeflag :=
  if name.getLast? = some '/' then Typeflag.TypeDir else Typeflag.TypeReg

/-- The function `copyToTarAndDigest`: returns the tar writer, the md5 buffer and the
size.  The header leaves the type flag unset, and the tar writer stores `storedTypeflag`;
an entry stored as a directory takes no content, so `io.Copy` fails on it unless the
source is empty. -/
def copyToTarAndDigest (env : Env) (tarw : List TarEntry) (md5w : Str) (src dst : Str) :
    Res (List TarEntry × Str × Int) :=
  match env.openFile src with
  | none => Res.error Err.openFile
  | some file =>
    if file.IsDir then Res.ok (tarw, md5w, 0)
    else
      match dst with
      | [] => Res.panic
      | _ :: name =>
        let header : TarHeader :=
          { Name := name, Size := file.content.length, Mode := file.Mode,
            Typeflag := Typeflag.unset }
        if env.tarHeaderOk header then
          let stored : TarHeader := { header with Typeflag := storedTypeflag name }
          if file.readErr ∨ (stored.Typeflag = Typeflag.TypeDir ∧ file.content ≠ []) then
            Res.error Err.copy
          else
            Res.ok (tarw ++ [{ hdr := stored, body := file.content }],
              md5w ++ md5Line (env.md5 file.content) header.Name,
              (file.content.length : Int))
        else Res.error Err.dataHeader

/-- The local state of `createDataTarGz`. -/
structure DataState where
  out : List TarEntry := []
  created : List Str := []
  md5buf : Str := []
  instSize : Int := 0

/-- The inner loop of `createDataTarGz`: `for src, dst := range files`. -/
def dataLoop (env : Env) (fuel : Nat) : List (Str × Str) → DataState → Res DataState
  | [], st => Res.ok st
  | (src, dst) :: rest, st =>
    (createTree env fuel st.out dst st.created).bind (fun tc =>
      (copyToTarAndDigest env tc.1 st.md5buf src dst).bind (fun r =>
        dataLoop env fuel rest
          { out := r.1, created := tc.2, md5buf := r.2.1,
            instSize := wrap64 (st.instSize + r.2.2) }))

/-- The two loops of `createDataTarGz`: `info.Files`, then `info.ConfigFiles`. -/
def dataEntries (env : Env) (fuel : Nat) (info : Info) : Res DataState :=
  (dataLoop env fuel info.Files {}).bind (fun st => dataLoop env fuel info.ConfigFiles st)

/-- The function `createDataTarGz`: returns `(dataTarGz, md5sums, instSize)`. -/
def createDataTarGz (env : Env) (fuel : Nat) (info : Info) : Res (Str × Str × Int) :=
  (dataEntries env fuel info).bind (fun st =>
    Res.ok (env.targz st.out, st.md5buf, st.instSize))

/-! ## `deb.go`: the control archive -/

/-- The function `conffiles`. -/
def conffiles (info : Info) : Str :=
  let confs := info.ConfigFiles.map (fun sd => sd.2)
  Join confs ['\n'] ++ ['\n']

/-- The template function `join`. -/
def join (strs : List Str) : Str :=
  TrimSpaces (Join strs [',', ' '])

/-- The record `controlData`. -/
structure controlData where
  Info : Info
  InstalledSize : Int

/-- A `with` block of `controlTemplate` for a relation field `F`: nothing for an empty
list, otherwise a line break, the label `F: ` and the joined list.  The trim markers of
the template remove the line breaks around the actions. -/
def withField (label : Str) (strs : List Str) : Str :=
  if strs = [] then []
  else '\n' :: (label ++ [':', ' '] ++ join strs)

/-- The function `writeControl`: the text that executing `controlTemplate` on `data`
writes. -/
def writeControl (data : controlData) : Str :=
  "Package: ".toList ++ data.Info.Name ++
  "\nVersion: ".toList ++ data.Info.Version ++
  "\nSection: ".toList ++ data.Info.Section ++
  "\nPriority: ".toList ++ data.Info.Priority ++
  "\nArchitecture: ".toList ++ data.Info.Arch ++
  "\nMaintainer: ".toList ++ data.Info.Maintainer ++
  "\nVendor: ".toList ++ data.Info.Vendor ++
  "\nInstalled-Size: ".toList ++ itoa data.InstalledSize ++
  withField "Replaces".toList data.Info.Replaces ++
  withField "Provides".toList data.Info.Provides ++
  withField "Depends".toList data.Info.Depends ++
  withField "Recommends".toList data.Info.Recommends ++
  withField "Suggests".toList data.Info.Suggests ++
  withField "Conflicts".toList data.Info.Conflicts ++
  "\nHomepage: ".toList ++ data.Info.Homepage ++
  "\nDescription: ".toList ++ data.Info.Description ++ ['\n']

/-- The function `newFileInsideTarGz`. -/
def newFileInsideTarGz (env : Env) (out : List TarEntry) (name content : Str) :
    Res (List TarEntry) :=
  let header : TarHeader :=
    { Name := name, Size := content.length, Mode := 0o644, Typeflag := Typeflag.TypeReg }
  if env.tarHeaderOk header then Res.ok (out ++ [{ hdr := header, body := content }])
  else Res.error Err.controlHeader

/-- The members that `createControl` ranges over, in the order of the map literal (the
traversal order of a Go map is unspecified). -/
def controlMembers (instSize : Int) (md5sums : Str) (info : Info) : List (Str × Str) :=
  [("control".toList, writeControl { Info := info, InstalledSize := Int.tdiv instSize 1024 }),
   ("md5sums".toList, md5sums),
   ("conffiles".toList, conffiles info)]

/-- The loop of `createControl` over the members. -/
def controlLoop (env : Env) : List (Str × Str) → List TarEntry → Res (List TarEntry)
  | [], out => Res.ok out
  | (name, content) :: rest, out =>
    (newFileInsideTarGz env out name content).bind (fun out => controlLoop env rest out)

/-- The entries of the control archive that `createControl` writes. -/
def controlEntries (env : Env) (instSize : Int) (md5sums : Str) (info : Info) :
    Res (List TarEntry) :=
  controlLoop env (controlMembers instSize md5sums info) []

/-- The function `createControl`. -/
def createControl (env : Env) (instSize : Int) (md5sums : Str) (info : Info) : Res Str :=
  (controlEntries env instSize md5sums info).bind (fun out => Res.ok (env.targz out))

/-! ## `deb_sign.go` -/

/-- The record `file` of the signer. -/
structure file where
  name : Str
  length : Nat
  md5Sum : Str
  shaSum : Str
  deriving DecidableEq, Repr

/-- The record `signer`. -/
structure signer where
  files : List file := []
  info : Info

/-- The method `signer.add`. -/
def signer.add (env : Env) (s : signer) (filename data : Str) : signer :=
  let md5sum := hexEncode (env.md5 data)
  let shaSum := hexEncode (env.sha1 data)
  let f : file := { name := filename, md5Sum := md5sum, shaSum := shaSum, length := data.length }
  { s with files := s.files ++ [f] }

/-- The loop of `parseKey` over the packets: keeps the first private key and the first
user id, stops with an error at the first packet that cannot be read. -/
def parseLoop : List Next → Option PrivateKey → Option Str →
    Res (Option PrivateKey × Option Str)
  | [], priv, uid => Res.ok (priv, uid)
  | Next.err :: _, _, _ => Res.error Err.packets
  | Next.pkt (Packet.PrivateKey k) :: rest, priv, uid =>
    parseLoop rest (if priv = none then some k else priv) uid
  | Next.pkt (Packet.UserId u) :: rest, priv, uid =>
    parseLoop rest priv (if uid = none then some u else uid)
  | Next.pkt Packet.other :: rest, priv, uid => parseLoop rest priv uid

/-- The method `signer.parseKey`. -/
def signer.parseKey (env : Env) (s : signer) : Res (PrivateKey × Str) :=
  match env.armorDecode s.info.DebSigningKey with
  | none => Res.error Err.armor
  | some packets =>
    (parseLoop packets none none).bind (fun pu =>
      match pu with
      | (none, _) => Res.error Err.noPrivateKey
      | (some _, none) => Res.error Err.noUserId
      | (some priv, some uid) => Res.ok (priv, uid))

/-- A line of the signed text: `fmt.Sprintf("\t%s %s %d %s\n", md5Sum, shaSum, length,
name)`. -/
def fileLine (f : file) : Str :=
  '\t' :: (f.md5Sum ++ [' '] ++ f.shaSum ++ [' '] ++ Nat.toDigits 10 f.length ++ [' '] ++
    f.name ++ ['\n'])

/-- The head of the signed text: the format string of `sign` with its two `%s` filled
with the first and the second argument. -/
def signHeader (arg1 arg2 : Str) : Str :=
  "Version: 4\nSigner: ".toList ++ arg1 ++ "\nDate: ".toList ++ arg2 ++
    "\nRole: origin\nFiles:\n".toList

/-- The text that `sign` writes to the clear-sign encoder: the head, built from
`time.Now().Format(...)` and `uid.Id` in the order the call passes them, then a line per
file. -/
def signedText (env : Env) (s : signer) (uid : Str) : Str :=
  signHeader env.now uid ++ (s.files.map fileLine).flatten

/-- The method `signer.sign`.  The results of `encoder.Write` and `encoder.Close` are not
inspected. -/
def signer.sign (env : Env) (s : signer) : Res Str :=
  if s.info.DebSigningKey = [] then Res.ok []
  else
    (s.parseKey env).bind (fun pu =>
      if pu.1.Encrypted ∧ ¬ env.decryptOk pu.1 s.info.DebSigningKeyPassword then
        Res.error Err.decrypt
      else if ¬ env.encodeOk pu.1 then Res.error Err.createSignature
      else
        let text := signedText env s pu.2
        -- `encoder.Write(...)` and `encoder.Close()`: `env.closeOk pu.1 text` is not read
        let buffer := env.clearsign pu.1 text
        Res.ok (buffer ++ ['\n']))

/-! ## `deb.go`: the outer container -/

/-- The state of the `ar.Writer`: what has reached the sink, in order, and the number of
writes attempted. -/
structure ArWriter where
  items : List ArItem := []
  writes : Nat := 0

/-- One write to the sink: appends the item when the sink accepts the write. -/
def ArWriter.put (env : Env) (w : ArWriter) (item : ArItem) : ArWriter × Bool :=
  if env.sinkOk w.writes then
    ({ items := w.items ++ [item], writes := w.writes + 1 }, true)
  else ({ w with writes := w.writes + 1 }, false)

/-- The function `addArFile`: returns the writer, the signer (`none` for a nil signer)
and the error, if any. -/
def addArFile (env : Env) (w : ArWriter) (name body : Str) (sg : Option signer) :
    ArWriter × Option signer × Option Err :=
  let header : ArHeader := { Name := name, Size := body.length, Mode := 0o644 }
  let wh := w.put env (ArItem.header header)
  if wh.2 then
    let wb := wh.1.put env (ArItem.body body)
    let sg := sg.map (fun s => s.add env name body)
    (wb.1, sg, if wb.2 then none else some Err.arWrite)
  else (wh.1, sg, some Err.arHeader)

/-- The part of `Deb.Package` that writes to the sink, given the two archives. -/
def writeDeb (env : Env) (info : Info) (controlTarGz dataTarGz : Str) :
    ArWriter × Res Unit :=
  let sg : signer := { info := info }
  let w : ArWriter := {}
  let w0 := w.put env ArItem.globalHeader
  if ¬ w0.2 then (w0.1, Res.error Err.arGlobalHeader)
  else
    match addArFile env w0.1 "debian-binary".toList "2.0\n".toList (some sg) with
    | (w1, _, some e) => (w1, Res.error e)
    | (w1, sg1, none) =>
      match addArFile env w1 "control.tar.gz".toList controlTarGz sg1 with
      | (w2, _, some e) => (w2, Res.error e)
      | (w2, sg2, none) =>
        match addArFile env w2 "data.tar.gz".toList dataTarGz sg2 with
        | (w3, _, some e) => (w3, Res.error e)
        | (w3, sg3, none) =>
          match (sg3.getD sg).sign env with
          | Res.ok signature =>
            if signature.length = 0 then (w3, Res.ok ())
            else
              match addArFile env w3 "_gpgorigin".toList signature none with
              | (w4, _, some e) => (w4, Res.error e)
              | (w4, _, none) => (w4, Res.ok ())
          | Res.error e => (w3, Res.error e)
          | Res.panic => (w3, Res.panic)
          | Res.hang => (w3, Res.hang)

/-- The method `Deb.Package`: returns what reached the sink and the outcome. -/
def Package (env : Env) (fuel : Nat) (info : Info) : ArWriter × Res Unit :=
  match createDataTarGz env fuel info with
  | Res.ok (dataTarGz, md5sums, instSize) =>
    match createControl env instSize md5sums info with
    | Res.ok controlTarGz => writeDeb env info controlTarGz dataTarGz
    | Res.error e => ({}, Res.error e)
    | Res.panic => ({}, Res.panic)
    | Res.hang => ({}, Res.hang)
  | Res.error e => ({}, Res.error e)
  | Res.panic => ({}, Res.panic)
  | Res.hang => ({}, Res.hang)

/-! ## Vocabulary of the statements -/

/-- The text has the line `line`: at the very start or after a line break, and followed by
a line break. -/
def hasLine (text line : Str) : Prop :=
  ('\n' :: (line ++ ['\n'])) <:+: ('\n' :: text)

/-- The text has a line that begins with `pre` (`pre` itself has no line break). -/
def hasLineStarting (text pre : Str) : Prop :=
  ('\n' :: pre) <:+: ('\n' :: text)

instance (text line : Str) : Decidable (hasLine text line) :=
  List.decidableInfix _ _

instance (text pre : Str) : Decidable (hasLineStarting text pre) :=
  List.decidableInfix _ _

/-- The six relation fields of the control record: label and list. -/
def relationFields (info : Info) : List (Str × List Str) :=
  [("Replaces".toList, info.Replaces), ("Provides".toList, info.Provides),
   ("Depends".toList, info.Depends), ("Recommends".toList, info.Recommends),
   ("Suggests".toList, info.Suggests), ("Conflicts".toList, info.Conflicts)]

/-- The texts that `controlTemplate` prints from the manifest: the fields, and the trimmed
joined relation lists. -/
def printedValues (info : Info) : List Str :=
  [info.Name, info.Version, info.Section, info.Priority, info.Arch, info.Maintainer,
   info.Vendor, join info.Replaces, join info.Provides, join info.Depends,
   join info.Recommends, join info.Suggests, join info.Conflicts, info.Homepage,
   info.Description]

/-- The lines of the rendered control record, the final empty one apart. -/
def controlLines (data : controlData) : List Str :=
  let rel := fun (label : Str) (strs : List Str) =>
    if strs = [] then [] else [label ++ [':', ' '] ++ join strs]
  ["Package: ".toList ++ data.Info.Name, "Version: ".toList ++ data.Info.Version,
   "Section: ".toList ++ data.Info.Section, "Priority: ".toList ++ data.Info.Priority,
   "Architecture: ".toList ++ data.Info.Arch, "Maintainer: ".toList ++ data.Info.Maintainer,
   "Vendor: ".toList ++ data.Info.Vendor,
   "Installed-Size: ".toList ++ itoa data.InstalledSize] ++
  rel "Replaces".toList data.Info.Replaces ++ rel "Provides".toList data.Info.Provides ++
  rel "Depends".toList data.Info.Depends ++ rel "Recommends".toList data.Info.Recommends ++
  rel "Suggests".toList data.Info.Suggests ++ rel "Conflicts".toList data.Info.Conflicts ++
  ["Homepage: ".toList ++ data.Info.Homepage,
   "Description: ".toList ++ data.Info.Description]

/-- The signer of `Deb.Package` after the three members have been added. -/
def signerOf (env : Env) (info : Info) (controlTarGz dataTarGz : Str) : signer :=
  ((({ info := info } : signer).add env "debian-binary".toList "2.0\n".toList).add env
    "control.tar.gz".toList controlTarGz).add env "data.tar.gz".toList dataTarGz

/-- The items of one member of the outer container: its header (mode 0644, the size is the
length of the content) and its content. -/
def arMember (name body : Str) : List ArItem :=
  [ArItem.header { Name := name, Size := body.length, Mode := 0o644 }, ArItem.body body]

/-- The names of the member headers among the items that reached the sink, in order. -/
def memberNames : List ArItem → List Str
  | [] => []
  | ArItem.header h :: rest => h.Name :: memberNames rest
  | _ :: rest => memberNames rest

/-- Whether an entry of the data archive is a file entry: its stored type is `TypeReg`. -/
def isFileEntry (e : TarEntry) : Bool :=
  e.hdr.Typeflag = Typeflag.TypeReg

/-- The entry that `copyToTarAndDigest` adds to the data archive for a mapping when it
succeeds: none when the source is a directory (or cannot be opened); otherwise an entry
named by the destination without its first character, a file entry unless that name ends
in a slash. -/
def copiedEntry (env : Env) (sd : Str × Str) : List TarEntry :=
  match env.openFile sd.1 with
  | none => []
  | some f =>
    if f.IsDir then []
    else [{ hdr := { Name := sd.2.drop 1, Size := f.content.length, Mode := f.Mode,
                     Typeflag := storedTypeflag (sd.2.drop 1) },
            body := f.content }]

/-- The byte size that a source contributes: the length of its content, nothing for a
directory. -/
def srcSize (env : Env) (src : Str) : Nat :=
  match env.openFile src with
  | none => 0
  | some f => if f.IsDir then 0 else f.content.length

/-- The sum of the byte sizes of the content files and the config files. -/
def totalSize (env : Env) (info : Info) : Nat :=
  ((info.Files ++ info.ConfigFiles).map (fun sd => srcSize env sd.1)).sum

/-- The md5sums lines of a list of file entries. -/
def md5Lines (env : Env) (es : List TarEntry) : Str :=
  (es.map (fun e => md5Line (env.md5 e.body) e.hdr.Name)).flatten

/-- An ordinary path element: not empty, not `.`, not `..`, without separator. -/
def normalElem (e : Str) : Prop :=
  e ≠ [] ∧ e ≠ ['.'] ∧ e ≠ dotdot ∧ '/' ∉ e

/-- The shape of the elements that `Clean` keeps for a path that is not rooted, the last
one first: ordinary names, then only `..`. -/
def NF : List Str → Prop
  | [] => True
  | e :: S => (e = dotdot ∧ ∀ d ∈ S, d = dotdot) ∨ (normalElem e ∧ NF S)

/-- The path that `Clean` prints for the kept elements `S` (the last one first) of a path
that is not rooted. -/
def render (S : List Str) : Str :=
  if S = [] then ['.'] else Join S.reverse ['/']

/-- The elements that `Clean` keeps of the directory part of a path that is not rooted. -/
def stackOf (p : Str) : List Str :=
  (p.splitOn '/').dropLast.foldl (cleanElem false) []

/-- The paths of the kept elements and of all their ancestors, the longest first. -/
def rendersFrom : List Str → List Str
  | [] => []
  | e :: S => render (e :: S) :: rendersFrom S

/-- The ancestor directories of the path with the directory elements `cs`: the paths of the
non-empty prefixes of `cs`, the shortest first. -/
def ancestorDirs (cs : List Str) : List Str :=
  (List.range cs.length).map (fun k => Join (cs.take (k + 1)) ['/'])

/-- The directory entry that `createTree` writes for a path. -/
def dirEntry (path : Str) : TarEntry :=
  { hdr := { Name := path ++ ['/'], Size := 0, Mode := 0o755, Typeflag := Typeflag.TypeDir },
    body := [] }

/-- Whether an entry was written by `createTree`. -/
def isDirEntry (e : TarEntry) : Bool :=
  e.hdr.Typeflag = Typeflag.TypeDir

/-- The invariant of the set `created`: no path twice, and every path after all the
results of repeating `filepath.Dir` on it, these in the order of `pathsToCreate`. -/
def CreatedOk (fuel : Nat) (created : List Str) : Prop :=
  created.Nodup ∧
  ∀ c ∈ created, ∃ L, pathsLoop fuel c [] = some L ∧ (L.reverse ++ [c]).Sublist created

/-- Every element of the list comes after the results of repeating `filepath.Dir` on
it. -/
def Chained (fuel : Nat) (P : List Str) : Prop :=
  ∀ pre x post, P = pre ++ x :: post → pathsLoop fuel x [] = some pre.reverse

/-- The directories that the data archive needs for a destination: the paths of the
elements that `filepath.Clean` keeps of its directory part, the nearest to the root
first. -/
def ancestors (dst : Str) : List Str :=
  (rendersFrom (stackOf (dst.drop 1))).reverse

/-- The first private key among the packets. -/
def firstPrivateKey : List Next → Option PrivateKey
  | [] => none
  | Next.pkt (Packet.PrivateKey k) :: _ => some k
  | _ :: rest => firstPrivateKey rest

/-- The first user id among the packets. -/
def firstUserId : List Next → Option Str
  | [] => none
  | Next.pkt (Packet.UserId u) :: _ => some u
  | _ :: rest => firstUserId rest

/-! ## Concrete inputs -/

/-- A manifest with two configuration files. -/
def infoConf : Info :=
  { Name := "foo".toList,
    ConfigFiles := [("./etc/a.conf".toList, "/etc/foo/a.conf".toList),
                    ("./etc/b.conf".toList, "/etc/foo/b.conf".toList)] }

/-- A manifest whose only relation item has a leading space. -/
def infoSpace : Info :=
  { Name := "foo".toList, Replaces := [" a".toList] }

/-- A manifest without relations whose description has a second line. -/
def infoTwoLines : Info :=
  { Name := "foo".toList, Description := "x\nReplaces: y".toList }

/-- A manifest with the relation list of the example. -/
def infoRel : Info :=
  { Name := "foo".toList, Version := "1.2.3".toList, Arch := "amd64".toList,
    Replaces := ["a".toList, "b".toList] }

/-- An environment with the files `./bin/foo` (3 bytes), `./etc/a.conf` (1100 bytes) and the
directory `./share`; every header is accepted and every write succeeds; the digests and
the archive encoding are stand-ins. -/
def envDemo : Env :=
  { openFile := fun src =>
      if src = "./bin/foo".toList then
        some { IsDir := false, Mode := 0o755, content := ['E', 'L', 'F'] }
      else if src = "./etc/a.conf".toList then
        some { IsDir := false, Mode := 0o644, content := List.replicate 1100 'x' }
      else if src = "./share".toList then
        some { IsDir := true, Mode := 0o755, content := [] }
      else none,
    tarHeaderOk := fun _ => true,
    targz := fun es => (es.map (fun e => e.hdr.Name ++ [';'])).flatten,
    md5 := fun d => d.take 2,
    sha1 := fun d => d.reverse.take 2,
    sinkOk := fun _ => true,
    now := "Mon Jan 2 15:04:05 2006".toList,
    armorDecode := fun key =>
      if key = "KEY".toList then
        some [Next.pkt Packet.other,
              Next.pkt (Packet.PrivateKey { Encrypted := false, keyId := 7 }),
              Next.pkt (Packet.UserId "Alice".toList)]
      else none,
    decryptOk := fun _ _ => true,
    encodeOk := fun _ => true,
    clearsign := fun _ text => text,
    closeOk := fun _ _ => true }

/-- A manifest with a signing key and no files. -/
def infoSigned : Info :=
  { Name := "foo".toList, DebSigningKey := "KEY".toList }

/-- The environment `envDemo`, except that closing the clear-sign encoder fails: the
buffer holds the armor head and the text, and no signature. -/
def envCloseFails : Env :=
  { envDemo with
    clearsign := fun _ text => "-----BEGIN PGP SIGNED MESSAGE-----\n".toList ++ text,
    closeOk := fun _ _ => false }

/-- A manifest whose only source is the directory `./share`. -/
def infoDir : Info :=
  { Name := "foo".toList, Files := [("./share".toList, "/usr/share".toList)] }

/-- A manifest with one content file and one config file. -/
def infoFiles : Info :=
  { Name := "foo".toList, Version := "1.2.3".toList, Arch := "amd64".toList,
    Files := [("./bin/foo".toList, "/usr/local/bin/foo".toList)],
    ConfigFiles := [("./etc/a.conf".toList, "/etc/foo/a.conf".toList)] }

/-- The archive that `envDemo` gives for `infoFiles`: the names of its entries. -/
def tgzFiles : Str :=
  "usr/;usr/local/;usr/local/bin/;usr/local/bin/foo;etc/;etc/foo/;etc/foo/a.conf;".toList

/-- The md5sums listing for `infoFiles` with the stand-in digest of `envDemo`. -/
def md5Files : Str :=
  "454c  usr/local/bin/foo\n7878  etc/foo/a.conf\n".toList

/-- The manifest of the end-to-end example: one file, `./bin/foo` to
`/usr/local/bin/foo`. -/
def infoExample : Info :=
  { Name := "foo".toList, Version := "1.2.3".toList, Arch := "amd64".toList,
    Files := [("./bin/foo".toList, "/usr/local/bin/foo".toList)] }

/-- A manifest without relations whose description has two lines. -/
def infoLong : Info :=
  { Name := "foo".toList, Depends := ["libc6".toList],
    Description := "tool\n a longer text: Provides nothing".toList }

/-! ## Lemmas on lists of lines -/

theorem intercalate_append_sep {α : Type} (sep : List α) (x : List α) (xs : List (List α)) :
    sep.intercalate (x :: xs) ++ sep = ((x :: xs).map (fun l => l ++ sep)).flatten := by
  induction xs generalizing x with
  | nil => simp [List.intercalate]
  | cons y ys ih =>
    have h := ih y
    simp only [List.intercalate, List.intersperse, List.flatten, List.map] at h ⊢
    simp only [List.append_assoc]
    rw [h]
    simp

theorem withField_eq (label : Str) (strs : List Str) :
    withField label strs =
      (if strs = [] then [] else [label ++ [':', ' '] ++ join strs]).flatMap
        (fun l => '\n' :: l) := by
  unfold withField
  by_cases h : strs = [] <;> simp [h, List.flatMap]

/-- The rendered control record is its lines, each after a line break, and a final line
break. -/
theorem nl_writeControl (data : controlData) :
    '\n' :: writeControl data = (controlLines data).flatMap (fun l => '\n' :: l) ++ ['\n'] := by
  have e1 : "\nVersion: ".toList = '\n' :: "Version: ".toList := rfl
  have e2 : "\nSection: ".toList = '\n' :: "Section: ".toList := rfl
  have e3 : "\nPriority: ".toList = '\n' :: "Priority: ".toList := rfl
  have e4 : "\nArchitecture: ".toList = '\n' :: "Architecture: ".toList := rfl
  have e5 : "\nMaintainer: ".toList = '\n' :: "Maintainer: ".toList := rfl
  have e6 : "\nVendor: ".toList = '\n' :: "Vendor: ".toList := rfl
  have e7 : "\nInstalled-Size: ".toList = '\n' :: "Installed-Size: ".toList := rfl
  have e8 : "\nHomepage: ".toList = '\n' :: "Homepage: ".toList := rfl
  have e9 : "\nDescription: ".toList = '\n' :: "Description: ".toList := rfl
  unfold writeControl controlLines
  rw [e1, e2, e3, e4, e5, e6, e7, e8, e9]
  simp only [withField_eq]
  generalize "Package: ".toList = l0
  generalize "Version: ".toList = l1
  generalize "Section: ".toList = l2
  generalize "Priority: ".toList = l3
  generalize "Architecture: ".toList = l4
  generalize "Maintainer: ".toList = l5
  generalize "Vendor: ".toList = l6
  generalize "Installed-Size: ".toList = l7
  generalize "Homepage: ".toList = l8
  generalize "Description: ".toList = l9
  generalize (if data.Info.Replaces = [] then [] else
    ["Replaces".toList ++ [':', ' '] ++ join data.Info.Replaces]) = r1
  generalize (if data.Info.Provides = [] then [] else
    ["Provides".toList ++ [':', ' '] ++ join data.Info.Provides]) = r2
  generalize (if data.Info.Depends = [] then [] else
    ["Depends".toList ++ [':', ' '] ++ join data.Info.Depends]) = r3
  generalize (if data.Info.Recommends = [] then [] else
    ["Recommends".toList ++ [':', ' '] ++ join data.Info.Recommends]) = r4
  generalize (if data.Info.Suggests = [] then [] else
    ["Suggests".toList ++ [':', ' '] ++ join data.Info.Suggests]) = r5
  generalize (if data.Info.Conflicts = [] then [] else
    ["Conflicts".toList ++ [':', ' '] ++ join data.Info.Conflicts]) = r6
  simp only [List.flatMap_append, List.flatMap_cons, List.flatMap_nil, List.append_assoc,
    List.cons_append, List.nil_append, List.append_nil]

theorem hasLine_of_mem (ls : List Str) (l : Str) (h : l ∈ ls) :
    ('\n' :: (l ++ ['\n'])) <:+: (ls.flatMap (fun l => '\n' :: l) ++ ['\n']) := by
  obtain ⟨a, b, rfl⟩ := List.mem_iff_append.mp h
  have hb : ∃ t, b.flatMap (fun l => '\n' :: l) ++ ['\n'] = '\n' :: t := by
    cases b with
    | nil => exact ⟨[], by simp⟩
    | cons c cs => exact ⟨c ++ (cs.flatMap (fun l => '\n' :: l) ++ ['\n']), by simp [List.flatMap]⟩
  obtain ⟨t, ht⟩ := hb
  refine ⟨a.flatMap (fun l => '\n' :: l), t, ?_⟩
  have : (a ++ l :: b).flatMap (fun l => '\n' :: l) ++ ['\n']
      = a.flatMap (fun l => '\n' :: l) ++ ('\n' :: l) ++ (b.flatMap (fun l => '\n' :: l) ++ ['\n']) := by
    simp [List.flatMap]
  rw [this, ht]
  simp

theorem infix_of_not_mem_left {α : Type} (x : α) (p l t : List α) (hx : x ∉ l)
    (h : (x :: p) <:+: l ++ t) : (x :: p) <:+: t := by
  induction l with
  | nil => simpa using h
  | cons a l ih =>
    have hx2 : x ≠ a ∧ x ∉ l := by simpa using hx
    rw [List.cons_append, List.infix_cons_iff] at h
    rcases h with h | h
    · rw [List.cons_prefix_cons] at h
      exact absurd h.1 hx2.1
    · exact ih hx2.2 h

theorem prefix_left_of_not_mem {α : Type} (x : α) (pre l t : List α) (hx : x ∉ pre)
    (ht : t = [] ∨ ∃ u, t = x :: u) (h : pre <+: l ++ t) : pre <+: l := by
  induction l generalizing pre with
  | nil =>
    cases pre with
    | nil => exact List.prefix_refl _
    | cons b pre2 =>
      rcases ht with rfl | ⟨u, rfl⟩
      · simp at h
      · rw [List.nil_append, List.cons_prefix_cons] at h
        exact absurd (h.1 ▸ List.mem_cons_self b pre2) hx
  | cons a l ih =>
    cases pre with
    | nil => exact List.nil_prefix
    | cons b pre2 =>
      rw [List.cons_append, List.cons_prefix_cons] at h
      rw [List.cons_prefix_cons]
      have hx2 : x ∉ pre2 := fun hm => hx (List.mem_cons_of_mem _ hm)
      exact ⟨h.1, ih pre2 hx2 h.2⟩

theorem mem_toDigitsCore (f n : Nat) (ds : List Char) (c : Char)
    (h : c ∈ Nat.toDigitsCore 10 f n ds) : c ∈ ds ∨ ∃ d, d < 10 ∧ c = Nat.digitChar d := by
  induction f generalizing n ds with
  | zero => exact Or.inl (by simpa [Nat.toDigitsCore] using h)
  | succ f ih =>
    unfold Nat.toDigitsCore at h
    simp only at h
    split at h
    · rcases List.mem_cons.mp h with h | h
      · exact Or.inr ⟨n % 10, Nat.mod_lt _ (by decide), h⟩
      · exact Or.inl h
    · rcases ih _ _ h with h | h
      · rcases List.mem_cons.mp h with h | h
        · exact Or.inr ⟨n % 10, Nat.mod_lt _ (by decide), h⟩
        · exact Or.inl h
      · exact Or.inr h

theorem nl_not_mem_toDigits (n : Nat) : '\n' ∉ Nat.toDigits 10 n := by
  intro h
  rcases mem_toDigitsCore _ _ _ _ h with h | ⟨d, hd, h⟩
  · simp at h
  · interval_cases d <;> revert h <;> decide

theorem nl_not_mem_itoa (n : Int) : '\n' ∉ itoa n := by
  cases n with
  | ofNat n => exact nl_not_mem_toDigits n
  | negSucc n =>
    intro h
    rcases List.mem_cons.mp h with h | h
    · revert h; decide
    · exact nl_not_mem_toDigits _ h

theorem infix_append_nl (pre l t : Str) (hpre : '\n' ∉ pre)
    (ht : t = [] ∨ ∃ u, t = '\n' :: u) (h : ('\n' :: pre) <:+: l ++ t) :
    ('\n' :: pre) <:+: l ∨ ('\n' :: pre) <:+: t := by
  induction l with
  | nil => exact Or.inr (by simpa using h)
  | cons a l ih =>
    rw [List.cons_append, List.infix_cons_iff] at h
    rcases h with h | h
    · rw [List.cons_prefix_cons] at h
      have hp := prefix_left_of_not_mem '\n' pre l t hpre ht h.2
      left
      rw [List.infix_cons_iff]
      left
      rw [List.cons_prefix_cons]
      exact ⟨h.1, hp⟩
    · rcases ih h with h2 | h2
      · left
        rw [List.infix_cons_iff]
        exact Or.inr h2
      · exact Or.inr h2

/-- In a text made of lines, a line break followed by a text without line break either
begins one of the lines or lies within one of them. -/
theorem lineStart_cases (ls : List Str) (pre : Str) (hpre : '\n' ∉ pre)
    (h : ('\n' :: pre) <:+: ls.flatMap (fun l => '\n' :: l)) :
    ∃ l ∈ ls, pre <+: l ∨ ('\n' :: pre) <:+: l := by
  induction ls with
  | nil => simp at h
  | cons l ls ih =>
    have ht : ls.flatMap (fun l => '\n' :: l) = [] ∨
        ∃ u, ls.flatMap (fun l => '\n' :: l) = '\n' :: u := by
      cases ls with
      | nil => exact Or.inl rfl
      | cons m ms => exact Or.inr ⟨_, by rw [List.flatMap_cons, List.cons_append]⟩
    rw [List.flatMap_cons, List.cons_append, List.infix_cons_iff] at h
    rcases h with h | h
    · rw [List.cons_prefix_cons] at h
      exact ⟨l, List.mem_cons_self _ _,
        Or.inl (prefix_left_of_not_mem '\n' pre l _ hpre ht h.2)⟩
    · rcases infix_append_nl pre l _ hpre ht h with h2 | h2
      · exact ⟨l, List.mem_cons_self _ _, Or.inr h2⟩
      · obtain ⟨m, hm, hp⟩ := ih h2
        exact ⟨m, List.mem_cons_of_mem _ hm, hp⟩

/-- Every line of the control record is a label without line break followed by a printed
value or by the installed size. -/
theorem controlLines_split (data : controlData) :
    ∀ l ∈ controlLines data, ∃ lab v, l = lab ++ v ∧ '\n' ∉ lab ∧
      (v ∈ printedValues data.Info ∨ v = itoa data.InstalledSize) := by
  have hrel : ∀ (label : Str) (strs : List Str), '\n' ∉ label →
      join strs ∈ printedValues data.Info →
      ∀ l ∈ (if strs = [] then [] else [label ++ [':', ' '] ++ join strs]),
        ∃ lab v, l = lab ++ v ∧ '\n' ∉ lab ∧
          (v ∈ printedValues data.Info ∨ v = itoa data.InstalledSize) := by
    intro label strs h1 h2 l hl
    split at hl
    · simp at hl
    · simp only [List.mem_singleton] at hl
      subst hl
      exact ⟨label ++ [':', ' '], join strs, rfl, by simp [h1], Or.inl h2⟩
  intro l hl
  unfold controlLines at hl
  simp only [List.mem_append] at hl
  rcases hl with ((((((hl | hl) | hl) | hl) | hl) | hl) | hl) | hl
  · simp only [List.mem_cons, List.not_mem_nil, or_false] at hl
    rcases hl with hl | hl | hl | hl | hl | hl | hl | hl <;> subst hl
    · exact ⟨_, _, rfl, by decide, Or.inl (by simp [printedValues])⟩
    · exact ⟨_, _, rfl, by decide, Or.inl (by simp [printedValues])⟩
    · exact ⟨_, _, rfl, by decide, Or.inl (by simp [printedValues])⟩
    · exact ⟨_, _, rfl, by decide, Or.inl (by simp [printedValues])⟩
    · exact ⟨_, _, rfl, by decide, Or.inl (by simp [printedValues])⟩
    · exact ⟨_, _, rfl, by decide, Or.inl (by simp [printedValues])⟩
    · exact ⟨_, _, rfl, by decide, Or.inl (by simp [printedValues])⟩
    · exact ⟨_, _, rfl, by decide, Or.inr rfl⟩
  · exact hrel _ _ (by decide) (by simp [printedValues]) l hl
  · exact hrel _ _ (by decide) (by simp [printedValues]) l hl
  · exact hrel _ _ (by decide) (by simp [printedValues]) l hl
  · exact hrel _ _ (by decide) (by simp [printedValues]) l hl
  · exact hrel _ _ (by decide) (by simp [printedValues]) l hl
  · exact hrel _ _ (by decide) (by simp [printedValues]) l hl
  · simp only [List.mem_cons, List.not_mem_nil, or_false] at hl
    rcases hl with hl | hl <;> subst hl
    · exact ⟨_, _, rfl, by decide, Or.inl (by simp [printedValues])⟩
    · exact ⟨_, _, rfl, by decide, Or.inl (by simp [printedValues])⟩

theorem no_label_prefix (data : controlData) (p : Str × List Str)
    (hp : p ∈ relationFields data.Info) (hempty : p.2 = []) :
    ∀ l ∈ controlLines data, ¬ (p.1 ++ [':']) <+: l := by
  simp only [relationFields, List.mem_cons, List.not_mem_nil, or_false] at hp
  rcases hp with rfl | rfl | rfl | rfl | rfl | rfl <;> simp only at hempty <;>
    simp [controlLines, hempty] <;> intro a h <;>
    rcases h with ⟨_, rfl⟩ | ⟨_, rfl⟩ | ⟨_, rfl⟩ | ⟨_, rfl⟩ | ⟨_, rfl⟩ | rfl | rfl <;> simp

/-! ## The control archive: `conffiles` and the relation fields -/

theorem controlLoop_ok (env : Env) (ms : List (Str × Str)) (out0 out : List TarEntry)
    (h : controlLoop env ms out0 = Res.ok out) :
    out = out0 ++ ms.map (fun m =>
      { hdr := { Name := m.1, Size := m.2.length, Mode := 0o644, Typeflag := Typeflag.TypeReg },
        body := m.2 }) := by
  induction ms generalizing out0 with
  | nil =>
    simp only [controlLoop, Res.ok.injEq] at h
    simp [h]
  | cons m ms ih =>
    obtain ⟨name, content⟩ := m
    simp only [controlLoop, newFileInsideTarGz] at h
    split at h
    · simp only [Res.bind] at h
      rw [ih _ h]
      simp
    · simp [Res.bind] at h

theorem controlLoop_total (env : Env) (hok : ∀ h, env.tarHeaderOk h = true)
    (ms : List (Str × Str)) (out0 : List TarEntry) :
    ∃ out, controlLoop env ms out0 = Res.ok out := by
  induction ms generalizing out0 with
  | nil => exact ⟨out0, rfl⟩
  | cons m ms ih =>
    obtain ⟨name, content⟩ := m
    simp only [controlLoop, newFileInsideTarGz, hok, if_true, Res.bind]
    exact ih _

theorem createControl_ok (env : Env) (instSize : Int) (md5sums : Str) (info : Info)
    (ctl : Str) (h : createControl env instSize md5sums info = Res.ok ctl) :
    ∃ out, controlEntries env instSize md5sums info = Res.ok out ∧ ctl = env.targz out := by
  unfold createControl at h
  cases h1 : controlEntries env instSize md5sums info with
  | ok out =>
    rw [h1] at h
    simp only [Res.bind, Res.ok.injEq] at h
    exact ⟨out, rfl, h.symm⟩
  | error e => rw [h1] at h; simp [Res.bind] at h
  | panic => rw [h1] at h; simp [Res.bind] at h
  | hang => rw [h1] at h; simp [Res.bind] at h

/-- C4.  For a manifest with at least one configuration file, `conffiles` returns exactly
the destination paths of `ConfigFiles`, in traversal order, each followed by one line
break, and nothing else. -/
theorem conffiles_lines (info : Info) (h : info.ConfigFiles ≠ []) :
    conffiles info = (info.ConfigFiles.map (fun sd => sd.2 ++ ['\n'])).flatten := by
  unfold conffiles Join
  cases hc : info.ConfigFiles with
  | nil => exact absurd hc h
  | cons x xs =>
    have e := intercalate_append_sep ['\n'] x.2 (xs.map (fun sd => sd.2))
    simp only [List.map_cons] at e ⊢
    rw [e]
    simp [List.map_map, Function.comp_def]

/-- Witness of `conffiles_lines`: the two configuration files of `infoConf`. -/
theorem conffiles_lines_witness :
    infoConf.ConfigFiles ≠ [] ∧
      conffiles infoConf = "/etc/foo/a.conf\n/etc/foo/b.conf\n".toList :=
  ⟨by decide, conffiles_lines infoConf (by decide)⟩

/-- C5, as stated, fails: without configuration files the content of the `conffiles`
member is not empty, it is one line break. -/
theorem conffiles_empty_counterexample :
    ({} : Info).ConfigFiles = [] ∧ conffiles {} ≠ [] ∧ (conffiles {}).length = 1 := by
  decide

/-- C5, amended.  For a manifest without configuration files, `conffiles` returns a single
line break, and whenever `createControl` builds the control archive, the archive has the
member `conffiles` (mode 0644, regular file) with that one byte as content; the archive is
built whenever the tar writer accepts the headers.  The same is stated for the entries
(`controlEntries`) and for the archive that `createControl` returns. -/
theorem conffiles_member_no_config (env : Env) (instSize : Int) (md5sums : Str) (info : Info)
    (h : info.ConfigFiles = []) :
    conffiles info = ['\n'] ∧
    (∀ out, controlEntries env instSize md5sums info = Res.ok out →
      { hdr := { Name := "conffiles".toList, Size := 1, Mode := 0o644,
                 Typeflag := Typeflag.TypeReg },
        body := ['\n'] } ∈ out) ∧
    ((∀ hd, env.tarHeaderOk hd = true) →
      ∃ out, controlEntries env instSize md5sums info = Res.ok out) ∧
    (∀ ctl, createControl env instSize md5sums info = Res.ok ctl →
      ∃ out, ctl = env.targz out ∧
        { hdr := { Name := "conffiles".toList, Size := 1, Mode := 0o644,
                   Typeflag := Typeflag.TypeReg },
          body := ['\n'] } ∈ out) ∧
    ((∀ hd, env.tarHeaderOk hd = true) →
      ∃ ctl, createControl env instSize md5sums info = Res.ok ctl) := by
  have hc : conffiles info = ['\n'] := by
    simp [conffiles, h, Join, List.intercalate]
  have hmem : ∀ out, controlEntries env instSize md5sums info = Res.ok out →
      { hdr := { Name := "conffiles".toList, Size := 1, Mode := 0o644,
                 Typeflag := Typeflag.TypeReg },
        body := ['\n'] } ∈ out := by
    intro out ho
    have e := controlLoop_ok env _ _ _ ho
    rw [e]
    simp [controlMembers, hc]
  refine ⟨hc, hmem, ?_, ?_, ?_⟩
  · intro hok
    exact controlLoop_total env hok _ _
  · intro ctl hctl
    obtain ⟨out, ho, he⟩ := createControl_ok _ _ _ _ _ hctl
    exact ⟨out, he, hmem out ho⟩
  · intro hok
    obtain ⟨out, ho⟩ := controlLoop_total env hok (controlMembers instSize md5sums info) []
    exact ⟨env.targz out, by simp [createControl, controlEntries, ho, Res.bind]⟩

/-- Witness of `conffiles_member_no_config`: the manifest `infoRel` in `envDemo`. -/
theorem conffiles_member_no_config_witness :
    infoRel.ConfigFiles = [] ∧ conffiles infoRel = ['\n'] ∧
    (∃ out, controlEntries envDemo 0 [] infoRel = Res.ok out ∧
      { hdr := { Name := "conffiles".toList, Size := 1, Mode := 0o644,
                 Typeflag := Typeflag.TypeReg },
        body := ['\n'] } ∈ out) := by
  have h := conffiles_member_no_config envDemo 0 [] infoRel rfl
  obtain ⟨out, ho⟩ := h.2.2.1 (fun _ => rfl)
  exact ⟨rfl, h.1, out, ho, h.2.1 out ho⟩

set_option maxRecDepth 100000 in
/-- C6, as stated, fails twice: a relation item with an outer space is not printed as
joined (the join is trimmed), and a line beginning with the label of an empty relation
field can come from another value that has a line break. -/
theorem relation_lines_counterexample :
    (("Replaces".toList, infoSpace.Replaces) ∈ relationFields infoSpace ∧
      infoSpace.Replaces ≠ [] ∧
      ¬ hasLine (writeControl { Info := infoSpace, InstalledSize := 0 })
          ("Replaces".toList ++ [':', ' '] ++ Join infoSpace.Replaces [',', ' '])) ∧
    (("Replaces".toList, infoTwoLines.Replaces) ∈ relationFields infoTwoLines ∧
      infoTwoLines.Replaces = [] ∧
      hasLineStarting (writeControl { Info := infoTwoLines, InstalledSize := 0 })
          ("Replaces".toList ++ [':'])) := by
  decide

/-- C6, amended.  For every manifest and each relation field (Replaces, Provides, Depends,
Recommends, Suggests, Conflicts): when its list is not empty the rendered control record
has the line `Field: items`, the items joined by `, ` and the joined text trimmed of outer
spaces; when its list is empty and no text printed from the manifest (a field, or a
trimmed joined relation list) contains a line break followed by `Field:`, the record has
no line beginning with `Field:`. -/
theorem relation_lines (info : Info) (size : Int) (p : Str × List Str)
    (hp : p ∈ relationFields info) :
    (p.2 ≠ [] →
      hasLine (writeControl { Info := info, InstalledSize := size })
        (p.1 ++ [':', ' '] ++ join p.2)) ∧
    (p.2 = [] → (∀ v ∈ printedValues info, ¬ ('\n' :: (p.1 ++ [':'])) <:+: v) →
      ¬ hasLineStarting (writeControl { Info := info, InstalledSize := size })
        (p.1 ++ [':'])) := by
  constructor
  · intro hne
    unfold hasLine
    rw [nl_writeControl]
    apply hasLine_of_mem
    simp only [relationFields, List.mem_cons, List.not_mem_nil, or_false] at hp
    rcases hp with rfl | rfl | rfl | rfl | rfl | rfl <;> simp only at hne <;>
      simp [controlLines, hne]
  · intro hempty hv hs
    have hpre : '\n' ∉ p.1 ++ [':'] := by
      simp only [relationFields, List.mem_cons, List.not_mem_nil, or_false] at hp
      rcases hp with rfl | rfl | rfl | rfl | rfl | rfl <;> simp
    unfold hasLineStarting at hs
    rw [nl_writeControl] at hs
    have e : (controlLines { Info := info, InstalledSize := size }).flatMap
          (fun l => '\n' :: l) ++ ['\n']
        = (controlLines { Info := info, InstalledSize := size } ++ [[]]).flatMap
          (fun l => '\n' :: l) := by
      simp [List.flatMap_append]
    rw [e] at hs
    obtain ⟨l, hl, hcase⟩ := lineStart_cases _ _ hpre hs
    rcases List.mem_append.mp hl with hl | hl
    · rcases hcase with hc | hc
      · exact no_label_prefix { Info := info, InstalledSize := size } p hp hempty l hl hc
      · obtain ⟨lab, v, rfl, hlab, hval⟩ :=
          controlLines_split { Info := info, InstalledSize := size } l hl
        have hin := infix_of_not_mem_left '\n' _ lab v hlab hc
        rcases hval with hval | hval
        · exact hv v hval hin
        · rw [hval] at hin
          exact nl_not_mem_itoa size (hin.subset (List.mem_cons_self _ _))
    · simp only [List.mem_singleton] at hl
      subst hl
      rcases hcase with hc | hc
      · have := List.prefix_nil.mp hc
        simp at this
      · have := List.infix_nil.mp hc
        simp at this

set_option maxRecDepth 100000 in
/-- Witness of `relation_lines`: the line `Replaces: a, b` of the example, and no line
`Provides:` in a record whose description has two lines. -/
theorem relation_lines_witness :
    hasLine (writeControl { Info := infoRel, InstalledSize := 0 }) "Replaces: a, b".toList ∧
    ¬ hasLineStarting (writeControl { Info := infoLong, InstalledSize := 0 })
        "Provides:".toList :=
  ⟨(relation_lines infoRel 0 ("Replaces".toList, ["a".toList, "b".toList])
      (by decide)).1 (by decide),
   (relation_lines infoLong 0 ("Provides".toList, []) (by decide)).2 rfl (by decide)⟩

/-! ## The outer container and the signature -/

theorem addArFile_ok (env : Env) (w w2 : ArWriter) (name body : Str) (sg sg2 : Option signer)
    (h : addArFile env w name body sg = (w2, sg2, none)) :
    w2.items = w.items ++ arMember name body ∧ w2.writes = w.writes + 2 ∧
      sg2 = sg.map (fun s => s.add env name body) := by
  unfold addArFile ArWriter.put at h
  simp only at h
  by_cases h1 : env.sinkOk w.writes = true
  · by_cases h2 : env.sinkOk (w.writes + 1) = true
    · simp [h1, h2] at h
      obtain ⟨hw, hs⟩ := h
      subst hw
      simp [arMember, hs]
    · simp [h1, h2] at h
  · simp [h1] at h

theorem sign_unconfigured (env : Env) (s : signer) (h : s.info.DebSigningKey = []) :
    s.sign env = Res.ok [] := by
  simp [signer.sign, h]

/-- A successful `sign` with a key returns what the clear-sign encoder left in the buffer
for the text `signedText`, and a final line break. -/
theorem sign_configured_ok (env : Env) (s : signer) (sig : Str)
    (hk : s.info.DebSigningKey ≠ []) (h : s.sign env = Res.ok sig) :
    ∃ k uid, s.parseKey env = Res.ok (k, uid) ∧
      sig = env.clearsign k (signedText env s uid) ++ ['\n'] := by
  unfold signer.sign at h
  rw [if_neg hk] at h
  cases hp : s.parseKey env with
  | ok pu =>
    rw [hp] at h
    simp only [Res.bind] at h
    split at h
    · simp at h
    · split at h
      · simp at h
      · simp only [Res.ok.injEq] at h
        exact ⟨pu.1, pu.2, rfl, h.symm⟩
  | error e => rw [hp] at h; simp [Res.bind] at h
  | panic => rw [hp] at h; simp [Res.bind] at h
  | hang => rw [hp] at h; simp [Res.bind] at h

theorem signerOf_info (env : Env) (info : Info) (c d : Str) :
    (signerOf env info c d).info = info := by
  simp [signerOf, signer.add]

/-- The files of the signer after the three members: one record per member, in the order
of the calls of `add`, with the digests and the length of the bytes given to `add`. -/
theorem signerOf_files (env : Env) (info : Info) (c d : Str) :
    (signerOf env info c d).files =
      [("debian-binary".toList, "2.0\n".toList), ("control.tar.gz".toList, c),
       ("data.tar.gz".toList, d)].map (fun nb =>
        { name := nb.1, length := nb.2.length, md5Sum := hexEncode (env.md5 nb.2),
          shaSum := hexEncode (env.sha1 nb.2) }) := by
  simp [signerOf, signer.add]

theorem writeDeb_ok (env : Env) (info : Info) (control data : Str) (w : ArWriter)
    (h : writeDeb env info control data = (w, Res.ok ())) :
    ∃ sig, (signerOf env info control data).sign env = Res.ok sig ∧
      w.items = [ArItem.globalHeader] ++ arMember "debian-binary".toList "2.0\n".toList ++
        arMember "control.tar.gz".toList control ++ arMember "data.tar.gz".toList data ++
        (if sig = [] then [] else arMember "_gpgorigin".toList sig) := by
  unfold writeDeb at h
  simp only at h
  split at h
  · simp at h
  · rename_i h0
    split at h
    · simp at h
    · rename_i w1 sg1 a1
      split at h
      · simp at h
      · rename_i w2 sg2 a2
        split at h
        · simp at h
        · rename_i w3 sg3 a3
          obtain ⟨i1, _, s1⟩ := addArFile_ok _ _ _ _ _ _ _ a1
          obtain ⟨i2, _, s2⟩ := addArFile_ok _ _ _ _ _ _ _ a2
          obtain ⟨i3, _, s3⟩ := addArFile_ok _ _ _ _ _ _ _ a3
          have hsg : sg3.getD { info := info } = signerOf env info control data := by
            subst s1 s2 s3
            simp [signerOf]
          rw [hsg] at h
          have hi0 : (ArWriter.put env {} ArItem.globalHeader).1.items
              = [ArItem.globalHeader] := by
            unfold ArWriter.put at h0 ⊢
            by_cases hs : env.sinkOk ({} : ArWriter).writes = true
            · simp [hs]
            · simp [hs] at h0
          split at h
          · rename_i sig hsig
            refine ⟨sig, hsig, ?_⟩
            split at h
            · rename_i hlen
              have : sig = [] := List.length_eq_zero.mp hlen
              simp only [Prod.mk.injEq, and_true] at h
              subst h
              simp [this, i3, i2, i1, hi0]
            · rename_i hlen
              have hne : sig ≠ [] := fun hh => hlen (by simp [hh])
              split at h
              · simp at h
              · rename_i w4 sg4 a4
                obtain ⟨i4, _, _⟩ := addArFile_ok _ _ _ _ _ _ _ a4
                simp only [Prod.mk.injEq, and_true] at h
                subst h
                simp [hne, i4, i3, i2, i1, hi0]
          · simp at h
          · simp at h
          · simp at h

/-- The members of a successful run.  When `Deb.Package` returns without error, what
reached the sink is the global
header followed by the members `debian-binary` (content `2.0` and a line break),
`control.tar.gz` (what `createControl` returned) and `data.tar.gz` (what `createDataTarGz`
returned), in this order, and then the member `_gpgorigin` with the signature exactly when
a signing key is configured; without a key these three members are all.  Every member has
mode 0644 and the length of its content as size (`arMember`). -/
theorem Package_members (env : Env) (fuel : Nat) (info : Info) (w : ArWriter)
    (h : Package env fuel info = (w, Res.ok ())) :
    ∃ control data sig,
      (∃ md5sums instSize, createDataTarGz env fuel info = Res.ok (data, md5sums, instSize) ∧
        createControl env instSize md5sums info = Res.ok control) ∧
      (signerOf env info control data).sign env = Res.ok sig ∧
      (sig = [] ↔ info.DebSigningKey = []) ∧
      w.items = [ArItem.globalHeader] ++ arMember "debian-binary".toList "2.0\n".toList ++
        arMember "control.tar.gz".toList control ++ arMember "data.tar.gz".toList data ++
        (if info.DebSigningKey = [] then [] else arMember "_gpgorigin".toList sig) := by
  unfold Package at h
  split at h
  · rename_i data md5sums instSize hd
    split at h
    · rename_i control hc
      obtain ⟨sig, hsig, hitems⟩ := writeDeb_ok env info control data w h
      have hiff : sig = [] ↔ info.DebSigningKey = [] := by
        constructor
        · intro hs
          by_contra hk
          obtain ⟨k, uid, _, he⟩ :=
            sign_configured_ok env _ sig (by rw [signerOf_info]; exact hk) hsig
          rw [hs] at he
          simp at he
        · intro hk
          have := sign_unconfigured env (signerOf env info control data)
            (by rw [signerOf_info]; exact hk)
          rw [this] at hsig
          simpa using hsig.symm
      refine ⟨control, data, sig, ⟨md5sums, instSize, hd, hc⟩, hsig, hiff, ?_⟩
      rw [hitems]
      by_cases hs : sig = []
      · simp [hs, hiff.mp hs]
      · rw [if_neg hs, if_neg (fun hk => hs (hiff.mpr hk))]
    · simp at h
    · simp at h
    · simp at h
  · simp at h
  · simp at h
  · simp at h

set_option maxRecDepth 100000 in
/-- An instance of `Package_members`: a signed package without files has four members. -/
theorem Package_members_witness :
    ∃ w, Package envDemo 0 infoSigned = (w, Res.ok ()) ∧
      memberNames w.items = ["debian-binary".toList, "control.tar.gz".toList,
        "data.tar.gz".toList, "_gpgorigin".toList] ∧
      ∃ control data sig,
        (∃ md5sums instSize,
          createDataTarGz envDemo 0 infoSigned = Res.ok (data, md5sums, instSize) ∧
          createControl envDemo instSize md5sums infoSigned = Res.ok control) ∧
        (signerOf envDemo infoSigned control data).sign envDemo = Res.ok sig ∧
        (sig = [] ↔ infoSigned.DebSigningKey = []) ∧
        w.items = [ArItem.globalHeader] ++ arMember "debian-binary".toList "2.0\n".toList ++
          arMember "control.tar.gz".toList control ++ arMember "data.tar.gz".toList data ++
          (if infoSigned.DebSigningKey = [] then [] else arMember "_gpgorigin".toList sig) :=
  ⟨(Package envDemo 0 infoSigned).1, Prod.ext rfl (by decide), by decide,
    Package_members envDemo 0 infoSigned _ (Prod.ext rfl (by decide))⟩

set_option maxRecDepth 100000 in
/-- C8, evaluated where it fails.  With the key of user `Alice` and the clock at
`Mon Jan 2 15:04:05 2006`, after `add("debian-binary", "2.0\n")`, the text that `sign`
gives to the clear-sign encoder (the encoder of `envDemo` returns its input) has the time
after `Signer:` and the user identity after `Date:`; it is not the text with the identity
after `Signer:` and the time after `Date:`.  The line of the member is as claimed. -/
theorem sign_header_swapped :
    (signer.add envDemo { info := infoSigned } "debian-binary".toList "2.0\n".toList).sign
        envDemo
      = Res.ok ("Version: 4\nSigner: Mon Jan 2 15:04:05 2006\nDate: Alice\nRole: origin\nFiles:\n\t322e 0a30 4 debian-binary\n\n".toList) ∧
    (signer.add envDemo { info := infoSigned } "debian-binary".toList "2.0\n".toList).sign
        envDemo
      ≠ Res.ok ("Version: 4\nSigner: Alice\nDate: Mon Jan 2 15:04:05 2006\nRole: origin\nFiles:\n\t322e 0a30 4 debian-binary\n\n".toList) := by
  decide

set_option maxRecDepth 100000 in
/-- C9, evaluated where it fails.  With a signing key that parses and an encoder whose
`Close` fails (no signature is computed), `Deb.Package` returns without error and has
written the member `_gpgorigin`. -/
theorem Package_success_without_signature :
    infoSigned.DebSigningKey ≠ [] ∧
    (∀ text, envCloseFails.closeOk { Encrypted := false, keyId := 7 } text = false) ∧
    (Package envCloseFails 0 infoSigned).2 = Res.ok () ∧
    memberNames (Package envCloseFails 0 infoSigned).1.items =
      ["debian-binary".toList, "control.tar.gz".toList, "data.tar.gz".toList,
       "_gpgorigin".toList] := by
  refine ⟨by decide, fun _ => rfl, by decide, by decide⟩

set_option maxRecDepth 100000 in
/-- C7, evaluated where it fails.  With a signing key that parses and an encoder whose
`Close` fails, so that no signature is produced, `Deb.Package` returns without error and
the container has four members: after `data.tar.gz` comes `_gpgorigin`, whose content is
what the encoder left in the buffer (the armor head and the text, no signature) and a line
break. -/
theorem Package_fourth_member_without_signature :
    infoSigned.DebSigningKey ≠ [] ∧
    envCloseFails.closeOk { Encrypted := false, keyId := 7 }
      (signedText envCloseFails
        (signerOf envCloseFails infoSigned "control;md5sums;conffiles;".toList [])
        "Alice".toList) = false ∧
    Package envCloseFails 0 infoSigned =
      ((Package envCloseFails 0 infoSigned).1, Res.ok ()) ∧
    (Package envCloseFails 0 infoSigned).1.items =
      [ArItem.globalHeader] ++ arMember "debian-binary".toList "2.0\n".toList ++
        arMember "control.tar.gz".toList "control;md5sums;conffiles;".toList ++
        arMember "data.tar.gz".toList [] ++
        arMember "_gpgorigin".toList
          ("-----BEGIN PGP SIGNED MESSAGE-----\n".toList ++
            signedText envCloseFails
              (signerOf envCloseFails infoSigned "control;md5sums;conffiles;".toList [])
              "Alice".toList ++ ['\n']) :=
  ⟨by decide, rfl, Prod.ext rfl (by decide), by decide⟩

/-! ## The data archive: sizes and digests -/

theorem createTreeLoop_files (env : Env) (paths : List Str) (tarw : List TarEntry)
    (created : List Str) (r : List TarEntry × List Str)
    (h : createTreeLoop env paths tarw created = Res.ok r) :
    r.1.filter isFileEntry = tarw.filter isFileEntry := by
  induction paths generalizing tarw created with
  | nil =>
    simp only [createTreeLoop, Res.ok.injEq] at h
    rw [← h]
  | cons p ps ih =>
    simp only [createTreeLoop] at h
    split at h
    · exact ih _ _ h
    · split at h
      · rw [ih _ _ h]
        simp [isFileEntry]
      · simp at h

theorem createTree_files (env : Env) (fuel : Nat) (tarw : List TarEntry) (dst : Str)
    (created : List Str) (r : List TarEntry × List Str)
    (h : createTree env fuel tarw dst created = Res.ok r) :
    r.1.filter isFileEntry = tarw.filter isFileEntry := by
  unfold createTree at h
  cases hp : pathsToCreate fuel dst with
  | ok paths =>
    rw [hp] at h
    exact createTreeLoop_files env paths tarw created r h
  | error e => rw [hp] at h; simp [Res.bind] at h
  | panic => rw [hp] at h; simp [Res.bind] at h
  | hang => rw [hp] at h; simp [Res.bind] at h

theorem copy_ok (env : Env) (tarw : List TarEntry) (md5w src dst : Str)
    (r : List TarEntry × Str × Int)
    (h : copyToTarAndDigest env tarw md5w src dst = Res.ok r) :
    r.1 = tarw ++ copiedEntry env (src, dst) ∧
    r.2.1 = md5w ++ md5Lines env (copiedEntry env (src, dst)) ∧
    r.2.2 = (srcSize env src : Int) ∧
    srcSize env src =
      (((copiedEntry env (src, dst)).filter isFileEntry).map (fun e => e.body.length)).sum := by
  unfold copyToTarAndDigest at h
  unfold copiedEntry srcSize md5Lines
  cases ho : env.openFile src with
  | none => rw [ho] at h; simp at h
  | some f =>
    rw [ho] at h
    simp only at h ⊢
    by_cases hd : f.IsDir = true
    · simp only [hd, if_true, Res.ok.injEq] at h ⊢
      subst h
      simp
    · have hd2 : f.IsDir = false := by simpa using hd
      simp only [hd2, Bool.false_eq_true, if_false] at h ⊢
      cases dst with
      | nil => simp at h
      | cons c name =>
        simp only at h
        split at h
        · split at h
          · simp at h
          · rename_i hcopy
            simp only [Res.ok.injEq] at h
            subst h
            simp only [List.drop_succ_cons, List.drop_zero, List.map_cons, List.map_nil,
              List.flatten_cons, List.flatten_nil, List.append_nil, true_and]
            by_cases hs : storedTypeflag name = Typeflag.TypeDir
            · have hc : f.content = [] := by
                by_contra hne
                exact hcopy (Or.inr ⟨hs, hne⟩)
              simp [isFileEntry, hs, hc]
            · have hr : storedTypeflag name = Typeflag.TypeReg := by
                unfold storedTypeflag at hs ⊢
                by_cases hl : name.getLast? = some '/'
                · rw [if_pos hl] at hs
                  exact absurd rfl hs
                · rw [if_neg hl]
              simp [isFileEntry, hr]
        · simp at h

theorem wrap64_id (x : Int) (h0 : 0 ≤ x) (h1 : x < 2 ^ 63) : wrap64 x = x := by
  unfold wrap64
  rw [Int.emod_eq_of_lt (by omega) (by omega)]
  omega

theorem dataLoop_ok (env : Env) (fuel : Nat) (ms : List (Str × Str)) (st st2 : DataState)
    (h : dataLoop env fuel ms st = Res.ok st2) :
    st2.out.filter isFileEntry =
      st.out.filter isFileEntry ++ (ms.flatMap (copiedEntry env)).filter isFileEntry ∧
    st2.md5buf = st.md5buf ++ md5Lines env (ms.flatMap (copiedEntry env)) ∧
    (0 ≤ st.instSize →
      st.instSize + ((ms.map (fun sd => srcSize env sd.1)).sum : Nat) < 2 ^ 63 →
      st2.instSize = st.instSize + ((ms.map (fun sd => srcSize env sd.1)).sum : Nat)) ∧
    (ms.map (fun sd => srcSize env sd.1)).sum =
      (((ms.flatMap (copiedEntry env)).filter isFileEntry).map (fun e => e.body.length)).sum := by
  induction ms generalizing st with
  | nil =>
    simp only [dataLoop, Res.ok.injEq] at h
    subst h
    simp [md5Lines]
  | cons sd ms ih =>
    obtain ⟨src, dst⟩ := sd
    simp only [dataLoop] at h
    cases ht : createTree env fuel st.out dst st.created with
    | ok tc =>
      rw [ht] at h
      simp only [Res.bind] at h
      cases hc : copyToTarAndDigest env tc.1 st.md5buf src dst with
      | ok r =>
        rw [hc] at h
        simp only at h
        obtain ⟨c1, c2, c3, c4⟩ := copy_ok _ _ _ _ _ _ hc
        obtain ⟨i1, i2, i3, i4⟩ := ih _ h
        simp only at i1 i2 i3
        have hf := createTree_files _ _ _ _ _ _ ht
        refine ⟨?_, ?_, ?_, ?_⟩
        · rw [i1, c1, List.filter_append, hf]
          simp [List.filter_append]
        · rw [i2, c2]
          simp [md5Lines]
        · intro h0 hlt
          simp only [List.map_cons, List.sum_cons, Nat.cast_add] at hlt ⊢
          have hw : wrap64 (st.instSize + r.2.2) = st.instSize + r.2.2 := by
            apply wrap64_id <;> rw [c3] <;> omega
          rw [hw, c3] at i3
          rw [i3] <;> omega
        · simp only [List.map_cons, List.sum_cons, List.flatMap_cons, List.filter_append,
            List.map_append, List.sum_append]
          rw [i4, c4]
      | error e => rw [hc] at h; simp at h
      | panic => rw [hc] at h; simp at h
      | hang => rw [hc] at h; simp at h
    | error e => rw [ht] at h; simp [Res.bind] at h
    | panic => rw [ht] at h; simp [Res.bind] at h
    | hang => rw [ht] at h; simp [Res.bind] at h

theorem dataEntries_ok (env : Env) (fuel : Nat) (info : Info) (st : DataState)
    (h : dataEntries env fuel info = Res.ok st) :
    st.out.filter isFileEntry =
      ((info.Files ++ info.ConfigFiles).flatMap (copiedEntry env)).filter isFileEntry ∧
    st.md5buf = md5Lines env ((info.Files ++ info.ConfigFiles).flatMap (copiedEntry env)) ∧
    (totalSize env info < 2 ^ 63 → st.instSize = (totalSize env info : Int)) ∧
    totalSize env info = ((st.out.filter isFileEntry).map (fun e => e.body.length)).sum := by
  unfold dataEntries at h
  cases h1 : dataLoop env fuel info.Files {} with
  | ok st1 =>
    rw [h1] at h
    simp only [Res.bind] at h
    obtain ⟨a1, a2, a3, a4⟩ := dataLoop_ok _ _ _ _ _ h1
    obtain ⟨b1, b2, b3, b4⟩ := dataLoop_ok _ _ _ _ _ h
    simp only [List.filter_nil, List.nil_append] at a1 a2 a3
    have e1 : st.out.filter isFileEntry
        = ((info.Files ++ info.ConfigFiles).flatMap (copiedEntry env)).filter isFileEntry := by
      rw [b1, a1, List.flatMap_append, List.filter_append]
    refine ⟨e1, ?_, ?_, ?_⟩
    · rw [b2, a2, List.flatMap_append]
      simp [md5Lines]
    · intro hlt
      unfold totalSize at hlt ⊢
      simp only [List.map_append, List.sum_append, Nat.cast_add] at hlt ⊢
      have a4 := a3 (le_refl 0) (by omega)
      rw [b3 (by omega) (by omega), a4]
      omega
    · rw [e1]
      unfold totalSize
      simp only [List.map_append, List.sum_append, List.flatMap_append, List.filter_append]
      rw [a4, b4]
  | error e => rw [h1] at h; simp [Res.bind] at h
  | panic => rw [h1] at h; simp [Res.bind] at h
  | hang => rw [h1] at h; simp [Res.bind] at h

theorem createDataTarGz_ok (env : Env) (fuel : Nat) (info : Info) (r : Str × Str × Int)
    (h : createDataTarGz env fuel info = Res.ok r) :
    ∃ st, dataEntries env fuel info = Res.ok st ∧
      r = (env.targz st.out, st.md5buf, st.instSize) := by
  unfold createDataTarGz at h
  cases h1 : dataEntries env fuel info with
  | ok st =>
    rw [h1] at h
    simp only [Res.bind, Res.ok.injEq] at h
    exact ⟨st, rfl, h.symm⟩
  | error e => rw [h1] at h; simp [Res.bind] at h
  | panic => rw [h1] at h; simp [Res.bind] at h
  | hang => rw [h1] at h; simp [Res.bind] at h

theorem mem_hexEncode (d : Str) (c : Char) (h : c ∈ hexEncode d) :
    c ∈ "0123456789abcdef".toList := by
  unfold hexEncode at h
  simp only [List.mem_flatten, List.mem_map] at h
  obtain ⟨l, ⟨b, _, rfl⟩, hc⟩ := h
  have key : ∀ n, n < 16 → Nat.digitChar n ∈ "0123456789abcdef".toList := by
    intro n hn
    interval_cases n <;> decide
  simp only [List.mem_cons, List.not_mem_nil, or_false] at hc
  rcases hc with rfl | rfl
  · exact key _ (Nat.mod_lt _ (by decide))
  · exact key _ (Nat.mod_lt _ (by decide))

theorem hasLine_installed_size (data : controlData) :
    hasLine (writeControl data) ("Installed-Size: ".toList ++ itoa data.InstalledSize) := by
  unfold hasLine
  rw [nl_writeControl]
  apply hasLine_of_mem
  simp [controlLines]

theorem copiedEntry_file (env : Env) (sd : Str × Str)
    (h : (sd.2.drop 1).getLast? ≠ some '/') :
    (copiedEntry env sd).filter isFileEntry = copiedEntry env sd := by
  unfold copiedEntry
  split
  · rfl
  · split
    · rfl
    · have h2 : ¬ (List.tail sd.2).getLast? = some '/' := by simpa using h
      simp [isFileEntry, storedTypeflag, h2]

theorem copiedEntries_file (env : Env) (ms : List (Str × Str))
    (h : ∀ sd ∈ ms, (sd.2.drop 1).getLast? ≠ some '/') :
    (ms.flatMap (copiedEntry env)).filter isFileEntry = ms.flatMap (copiedEntry env) := by
  induction ms with
  | nil => rfl
  | cons sd ms ih =>
    rw [List.flatMap_cons, List.filter_append, copiedEntry_file env sd (h sd (List.mem_cons_self _ _)),
      ih (fun x hx => h x (List.mem_cons_of_mem _ hx))]

set_option maxRecDepth 100000 in
/-- C3, evaluated where it fails.  For the declared mapping of `./share`, a directory, to
`/usr/share`, `createDataTarGz` succeeds and the md5sums listing it returns is empty: it
has no line for the one declared file. -/
theorem md5sums_directory_no_line :
    (infoDir.Files ++ infoDir.ConfigFiles).length = 1 ∧
    createDataTarGz envDemo 3 infoDir = Res.ok ("usr/;".toList, [], 0) := by
  decide

/-- The md5sums listing.  When `createDataTarGz` succeeds, the listing it returns has
exactly one line per entry that `copyToTarAndDigest` added (`copiedEntry`: one per declared
mapping whose source is not a directory, content files first, then config files), in the
order of the entries: the lower case hexadecimal MD5 digest of the content, two spaces, the
name of the entry (the destination without its first character), a line break.  When no
destination ends in a slash these entries are the file entries of the archive. -/
theorem md5sums_listing (env : Env) (fuel : Nat) (info : Info) (tgz md5sums : Str)
    (instSize : Int) (h : createDataTarGz env fuel info = Res.ok (tgz, md5sums, instSize)) :
    ∃ entries, tgz = env.targz entries ∧
      entries.filter isFileEntry =
        ((info.Files ++ info.ConfigFiles).flatMap (copiedEntry env)).filter isFileEntry ∧
      md5sums = md5Lines env ((info.Files ++ info.ConfigFiles).flatMap (copiedEntry env)) ∧
      ((∀ sd ∈ info.Files ++ info.ConfigFiles, (sd.2.drop 1).getLast? ≠ some '/') →
        md5sums = md5Lines env (entries.filter isFileEntry)) ∧
      ∀ e ∈ entries, ∀ c ∈ hexEncode (env.md5 e.body), c ∈ "0123456789abcdef".toList := by
  obtain ⟨st, hs, hr⟩ := createDataTarGz_ok _ _ _ _ h
  obtain ⟨a1, a2, _, _⟩ := dataEntries_ok _ _ _ _ hs
  simp only [Prod.mk.injEq] at hr
  refine ⟨st.out, hr.1, a1, hr.2.1.trans a2, ?_, fun e _ c hc => mem_hexEncode _ c hc⟩
  intro hsl
  rw [a1, copiedEntries_file env _ hsl]
  exact hr.2.1.trans a2

/-- C2.  When `createDataTarGz` succeeds (and the sum fits `int64`), the size it returns is
the sum `S` of the byte sizes of the content files and config files it added, the value
`InstalledSize` that `createControl` gives to the template is `S / 1024` rounded down, and
the control record, the member `control` of the control archive that `createControl`
returns, has the line `Installed-Size:` with that value.  Without files the archive is
built, and the line is `Installed-Size: 0`. -/
theorem installed_size (env : Env) (fuel : Nat) (info : Info) :
    (∀ tgz md5sums instSize,
      createDataTarGz env fuel info = Res.ok (tgz, md5sums, instSize) →
      totalSize env info < 2 ^ 63 →
      instSize = (totalSize env info : Int) ∧
      (∃ entries, tgz = env.targz entries ∧
        totalSize env info = ((entries.filter isFileEntry).map (fun e => e.body.length)).sum) ∧
      Int.tdiv instSize 1024 = ((totalSize env info / 1024 : Nat) : Int) ∧
      hasLine (writeControl { Info := info, InstalledSize := Int.tdiv instSize 1024 })
        ("Installed-Size: ".toList ++ Nat.toDigits 10 (totalSize env info / 1024)) ∧
      (∀ out, controlEntries env instSize md5sums info = Res.ok out →
        ∃ e ∈ out, e.hdr.Name = "control".toList ∧
          hasLine e.body
            ("Installed-Size: ".toList ++ Nat.toDigits 10 (totalSize env info / 1024))) ∧
      (∀ ctl, createControl env instSize md5sums info = Res.ok ctl →
        ∃ out, ctl = env.targz out ∧ ∃ e ∈ out, e.hdr.Name = "control".toList ∧
          hasLine e.body
            ("Installed-Size: ".toList ++ Nat.toDigits 10 (totalSize env info / 1024)))) ∧
    (info.Files = [] → info.ConfigFiles = [] →
      createDataTarGz env fuel info = Res.ok (env.targz [], [], 0) ∧
      hasLine (writeControl { Info := info, InstalledSize := Int.tdiv 0 1024 })
        "Installed-Size: 0".toList) := by
  constructor
  · intro tgz md5sums instSize h hfit
    obtain ⟨st, hs, hr⟩ := createDataTarGz_ok _ _ _ _ h
    obtain ⟨a1, a2, a3, a4⟩ := dataEntries_ok _ _ _ _ hs
    simp only [Prod.mk.injEq] at hr
    have hi : instSize = (totalSize env info : Int) := hr.2.2.trans (a3 hfit)
    have hd : Int.tdiv instSize 1024 = ((totalSize env info / 1024 : Nat) : Int) := by
      rw [hi]
      exact (Int.ofNat_tdiv _ _).symm
    have hline : hasLine (writeControl { Info := info, InstalledSize := Int.tdiv instSize 1024 })
        ("Installed-Size: ".toList ++ Nat.toDigits 10 (totalSize env info / 1024)) := by
      have := hasLine_installed_size { Info := info, InstalledSize := Int.tdiv instSize 1024 }
      rw [hd] at this ⊢
      exact this
    have hmem : ∀ out, controlEntries env instSize md5sums info = Res.ok out →
        ∃ e ∈ out, e.hdr.Name = "control".toList ∧
          hasLine e.body
            ("Installed-Size: ".toList ++ Nat.toDigits 10 (totalSize env info / 1024)) := by
      intro out ho
      rw [controlLoop_ok env _ _ _ ho]
      simp only [controlMembers, List.map_cons, List.nil_append]
      exact ⟨_, List.mem_cons_self _ _, rfl, hline⟩
    refine ⟨hi, ⟨st.out, hr.1, a4⟩, hd, hline, hmem, ?_⟩
    intro ctl hc
    obtain ⟨out, ho, he⟩ := createControl_ok _ _ _ _ _ hc
    exact ⟨out, he, hmem out ho⟩
  · intro hf hc
    constructor
    · simp [createDataTarGz, dataEntries, hf, hc, dataLoop, Res.bind]
    · exact hasLine_installed_size { Info := info, InstalledSize := Int.tdiv 0 1024 }

set_option maxRecDepth 1000000 in
/-- Witness of `installed_size`: 3 + 1100 bytes give `Installed-Size: 1`. -/
theorem installed_size_witness :
    createDataTarGz envDemo 4 infoFiles = Res.ok (tgzFiles, md5Files, 1103) ∧
    totalSize envDemo infoFiles < 2 ^ 63 ∧
    hasLine (writeControl { Info := infoFiles, InstalledSize := Int.tdiv 1103 1024 })
      "Installed-Size: 1".toList ∧
    hasLine (writeControl { Info := infoRel, InstalledSize := Int.tdiv 0 1024 })
      "Installed-Size: 0".toList :=
  ⟨by decide, by decide,
    ((installed_size envDemo 4 infoFiles).1 tgzFiles md5Files 1103 (by decide)
      (by decide)).2.2.2.1,
    ((installed_size envDemo 4 infoRel).2 rfl rfl).2⟩

set_option maxRecDepth 1000000 in
/-- An instance of `md5sums_listing`: the two files of `infoFiles`. -/
theorem md5sums_listing_witness :
    createDataTarGz envDemo 4 infoFiles = Res.ok (tgzFiles, md5Files, 1103) ∧
    ∃ entries,
      tgzFiles = envDemo.targz entries ∧
      entries.filter isFileEntry =
        ((infoFiles.Files ++ infoFiles.ConfigFiles).flatMap (copiedEntry envDemo)).filter
          isFileEntry ∧
      md5Files =
        md5Lines envDemo ((infoFiles.Files ++ infoFiles.ConfigFiles).flatMap
          (copiedEntry envDemo)) ∧
      ((∀ sd ∈ infoFiles.Files ++ infoFiles.ConfigFiles,
          (sd.2.drop 1).getLast? ≠ some '/') →
        md5Files = md5Lines envDemo (entries.filter isFileEntry)) ∧
      ∀ e ∈ entries, ∀ c ∈ hexEncode (envDemo.md5 e.body), c ∈ "0123456789abcdef".toList :=
  ⟨by decide, md5sums_listing envDemo 4 infoFiles tgzFiles md5Files 1103 (by decide)⟩

/-! ## The data archive: directories -/

theorem dropWhile_append_singleton {α : Type} (P : α → Bool) (l : List α) (a : α)
    (ha : P a = false) : (l ++ [a]).dropWhile P = l.dropWhile P ++ [a] := by
  induction l with
  | nil => simp [List.dropWhile, ha]
  | cons b l ih =>
    by_cases hb : P b = true
    · simp [List.dropWhile, hb, ih]
    · simp [List.dropWhile, hb]

/-- The directory of a rooted path is rooted: it is never `.`. -/
theorem Dir_rooted (rest : Str) : ∃ r, Dir ('/' :: rest) = '/' :: r := by
  unfold Dir
  have e : (('/' :: rest).reverse.dropWhile (fun c => c != '/')).reverse
      = '/' :: ((rest.reverse.dropWhile (fun c => c != '/')).reverse) := by
    rw [List.reverse_cons, dropWhile_append_singleton _ _ _ (by decide)]
    simp
  rw [e]
  unfold Clean
  simp

/-- From a rooted path the loop of `pathsToCreate` never reaches its exit. -/
theorem pathsLoop_rooted (fuel : Nat) (rest : Str) (paths : List Str) :
    pathsLoop fuel ('/' :: rest) paths = none := by
  induction fuel generalizing rest paths with
  | zero => rfl
  | succ n ih =>
    obtain ⟨r, hr⟩ := Dir_rooted rest
    simp only [pathsLoop, hr]
    rw [if_neg (by simp)]
    exact ih r _

/-- C10, evaluated where it fails.  For every destination path that begins with two
slashes (an absolute path), `pathsToCreate` does not return, whatever the fuel: with the
first character removed the path is rooted, and `filepath.Dir` of a rooted path is rooted,
never `.`. -/
theorem pathsToCreate_double_slash (fuel : Nat) (rest : Str) :
    pathsToCreate fuel ('/' :: '/' :: rest) = Res.hang := by
  simp [pathsToCreate, pathsLoop_rooted]

/-- C1, evaluated where it fails.  For a mapping whose destination begins with two slashes
`createDataTarGz` does not return, whatever the environment and the fuel: no entry of the
data archive is produced. -/
theorem createDataTarGz_double_slash (env : Env) (fuel : Nat) (src rest : Str) :
    createDataTarGz env fuel { Files := [(src, '/' :: '/' :: rest)] } = Res.hang := by
  simp [createDataTarGz, dataEntries, dataLoop, createTree, pathsToCreate, pathsLoop_rooted,
    Res.bind]

/-! ## Paths: `filepath.Dir` on a path that is not rooted -/

theorem splitOn_append_sep (a b : Str) :
    (a ++ '/' :: b).splitOn '/' = a.splitOn '/' ++ b.splitOn '/' := by
  induction a with
  | nil => simp [List.splitOn, List.splitOnP_cons, List.splitOnP_nil]
  | cons c a ih =>
    simp only [List.splitOn] at ih ⊢
    rw [List.cons_append, List.splitOnP_cons, List.splitOnP_cons, ih]
    split
    · rfl
    · cases h : List.splitOnP (fun x => x == '/') a with
      | nil => exact absurd h (List.splitOnP_ne_nil _ _)
      | cons x xs => rfl

theorem splitOn_no_sep (b : Str) (h : '/' ∉ b) : b.splitOn '/' = [b] := by
  apply List.splitOnP_eq_single
  intro x hx hp
  simp only [beq_iff_eq] at hp
  exact h (hp ▸ hx)

theorem not_mem_of_mem_splitOn (p : Str) : ∀ l ∈ p.splitOn '/', '/' ∉ l := by
  induction p with
  | nil => simp [List.splitOn, List.splitOnP_nil]
  | cons c p ih =>
    simp only [List.splitOn] at ih ⊢
    rw [List.splitOnP_cons]
    split
    · intro l hl
      rcases List.mem_cons.mp hl with rfl | hl
      · simp
      · exact ih l hl
    · rename_i hc
      cases h : List.splitOnP (fun x => x == '/') p with
      | nil => exact absurd h (List.splitOnP_ne_nil _ _)
      | cons x xs =>
        rw [h] at ih
        intro l hl
        simp only [List.modifyHead, List.mem_cons] at hl
        rcases hl with rfl | hl
        · intro hm
          rcases List.mem_cons.mp hm with hm | hm
          · exact hc (by simp [← hm])
          · exact ih x (List.mem_cons_self _ _) hm
        · exact ih l (List.mem_cons_of_mem _ hl)

theorem length_splitOn_le (p : Str) : (p.splitOn '/').length ≤ p.length + 1 := by
  induction p with
  | nil => simp [List.splitOn, List.splitOnP_nil]
  | cons c p ih =>
    simp only [List.splitOn] at ih ⊢
    rw [List.splitOnP_cons]
    split
    · simp only [List.length_cons]; omega
    · cases h : List.splitOnP (fun x => x == '/') p with
      | nil => exact absurd h (List.splitOnP_ne_nil _ _)
      | cons x xs =>
        rw [h] at ih
        simp only [List.modifyHead, List.length_cons] at ih ⊢
        omega

theorem exists_last_sep (p : Str) (h : '/' ∈ p) : ∃ a b, p = a ++ '/' :: b ∧ '/' ∉ b := by
  induction p with
  | nil => simp at h
  | cons c p ih =>
    by_cases hp : '/' ∈ p
    · obtain ⟨a, b, rfl, hb⟩ := ih hp
      exact ⟨c :: a, b, rfl, hb⟩
    · rcases List.mem_cons.mp h with hc | hc
      · exact ⟨[], p, by simp [← hc], hp⟩
      · exact absurd hc hp

theorem dropWhile_all {α : Type} (P : α → Bool) (l : List α) (a : α) (r : List α)
    (hl : ∀ c ∈ l, P c = true) (ha : P a = false) :
    (l ++ a :: r).dropWhile P = a :: r := by
  induction l with
  | nil => simp [List.dropWhile, ha]
  | cons b l ih =>
    have hb := hl b (List.mem_cons_self _ _)
    simp only [List.cons_append, List.dropWhile, hb]
    exact ih (fun c hc => hl c (List.mem_cons_of_mem _ hc))

theorem dirPrefix_sep (a b : Str) (hb : '/' ∉ b) :
    ((a ++ '/' :: b).reverse.dropWhile (fun c => c != '/')).reverse = a ++ ['/'] := by
  have e : (a ++ '/' :: b).reverse = b.reverse ++ '/' :: a.reverse := by simp
  rw [e, dropWhile_all _ _ _ _ _ (by decide)]
  · simp
  · intro c hc
    have : c ≠ '/' := fun h => hb (h ▸ List.mem_reverse.mp hc)
    simpa using this

theorem dirPrefix_no_sep (b : Str) (hb : '/' ∉ b) :
    (b.reverse.dropWhile (fun c => c != '/')).reverse = [] := by
  have : b.reverse.dropWhile (fun c => c != '/') = [] := by
    rw [List.dropWhile_eq_nil_iff]
    intro c hc
    have : c ≠ '/' := fun h => hb (h ▸ List.mem_reverse.mp hc)
    simpa using this
  rw [this]
  rfl

theorem NF_of_allDots (S : List Str) (h : ∀ d ∈ S, d = dotdot) : NF S := by
  induction S with
  | nil => trivial
  | cons e S ih =>
    exact Or.inl ⟨h e (List.mem_cons_self _ _), fun d hd => h d (List.mem_cons_of_mem _ hd)⟩

theorem NF_tail (e : Str) (S : List Str) (h : NF (e :: S)) : NF S := by
  rcases h with ⟨_, h⟩ | ⟨_, h⟩
  · exact NF_of_allDots S h
  · exact h

theorem NF_elem (S : List Str) (h : NF S) : ∀ e ∈ S, e ≠ [] ∧ e ≠ ['.'] ∧ '/' ∉ e := by
  induction S with
  | nil => simp
  | cons e S ih =>
    intro x hx
    rcases List.mem_cons.mp hx with rfl | hx
    · rcases h with ⟨h, _⟩ | ⟨h, _⟩
      · subst h; decide
      · exact ⟨h.1, h.2.1, h.2.2.2⟩
    · exact ih (NF_tail e S h) x hx

theorem NF_cleanElem (S : List Str) (e : Str) (h : NF S) (he : '/' ∉ e) :
    NF (cleanElem false S e) := by
  unfold cleanElem
  split
  · exact h
  · rename_i h1
    split
    · cases S with
      | nil => exact Or.inl ⟨rfl, by simp⟩
      | cons top rest =>
        simp only
        split
        · rename_i ht
          subst ht
          refine Or.inl ⟨rfl, ?_⟩
          rcases h with ⟨_, h⟩ | ⟨h, _⟩
          · intro d hd
            rcases List.mem_cons.mp hd with rfl | hd
            · rfl
            · exact h d hd
          · exact absurd rfl h.2.2.1
        · exact NF_tail top rest h
    · rename_i h2
      have h1' : e ≠ [] ∧ e ≠ ['.'] := by
        constructor
        · intro h; exact h1 (Or.inl h)
        · intro h; exact h1 (Or.inr h)
      exact Or.inr ⟨⟨h1'.1, h1'.2, h2, he⟩, h⟩

theorem NF_foldl (cs : List Str) (S : List Str) (h : NF S) (hcs : ∀ e ∈ cs, '/' ∉ e) :
    NF (cs.foldl (cleanElem false) S) := by
  induction cs generalizing S with
  | nil => exact h
  | cons c cs ih =>
    exact ih _ (NF_cleanElem S c h (hcs c (List.mem_cons_self _ _)))
      (fun e he => hcs e (List.mem_cons_of_mem _ he))

theorem length_foldl_cleanElem (cs : List Str) (S : List Str) :
    (cs.foldl (cleanElem false) S).length ≤ S.length + cs.length := by
  induction cs generalizing S with
  | nil => simp
  | cons c cs ih =>
    have h1 : (cleanElem false S c).length ≤ S.length + 1 := by
      unfold cleanElem
      split
      · omega
      · split
        · cases S with
          | nil => simp
          | cons top rest =>
            simp only
            split <;> simp only [List.length_cons] <;> omega
        · simp
    have := ih (cleanElem false S c)
    simp only [List.foldl_cons, List.length_cons]
    omega

theorem NF_stackOf (p : Str) : NF (stackOf p) := by
  have h0 : NF [] := trivial
  apply NF_foldl _ _ h0
  intro e he
  exact not_mem_of_mem_splitOn p e (List.dropLast_subset _ he)

theorem length_stackOf (p : Str) : (stackOf p).length ≤ p.length := by
  unfold stackOf
  have h1 := length_foldl_cleanElem (p.splitOn '/').dropLast []
  have h2 := length_splitOn_le p
  simp only [List.length_nil, List.length_dropLast] at h1
  omega

theorem foldl_reverse_NF (S : List Str) (h : NF S) :
    S.reverse.foldl (cleanElem false) [] = S := by
  induction S with
  | nil => rfl
  | cons e S ih =>
    rw [List.reverse_cons, List.foldl_append, ih (NF_tail e S h)]
    simp only [List.foldl_cons, List.foldl_nil]
    rcases h with ⟨he, hS⟩ | ⟨he, _⟩
    · subst he
      cases S with
      | nil => simp [cleanElem, dotdot]
      | cons top rest =>
        have ht := hS top (List.mem_cons_self _ _)
        subst ht
        simp [cleanElem, dotdot]
    · unfold cleanElem
      rw [if_neg (by intro h; rcases h with h | h; exact he.1 h; exact he.2.1 h),
        if_neg he.2.2.1]

theorem render_ne_dot (S : List Str) (h : NF S) (hne : S ≠ []) : render S ≠ ['.'] := by
  unfold render
  rw [if_neg hne]
  cases S with
  | nil => exact absurd rfl hne
  | cons e S =>
    cases S with
    | nil =>
      have := (NF_elem _ h e (List.mem_cons_self _ _)).2.1
      simpa [Join, List.intercalate] using this
    | cons e2 S2 =>
      intro hc
      have hm : '/' ∈ Join (e :: e2 :: S2).reverse ['/'] := by
        have e1 : (e :: e2 :: S2).reverse = S2.reverse ++ [e2] ++ [e] := by simp
        rw [e1]
        unfold Join
        have : ∀ (xs : List Str) (a b : Str), '/' ∈ ['/'].intercalate (xs ++ [a] ++ [b]) := by
          intro xs a b
          induction xs with
          | nil => simp [List.intercalate, List.intersperse]
          | cons x xs ih =>
            cases hx : xs ++ [a] ++ [b] with
            | nil => simp at hx
            | cons y ys =>
              rw [hx] at ih
              have : x :: xs ++ [a] ++ [b] = x :: y :: ys := by simp [← hx]
              rw [this]
              simp only [List.intercalate, List.intersperse, List.flatten_cons] at ih ⊢
              simp
        exact this _ _ _
      rw [hc] at hm
      revert hm
      decide

theorem render_relative (S : List Str) (h : NF S) (hne : S ≠ []) :
    render S ≠ [] ∧ (render S).head? ≠ some '/' := by
  unfold render
  rw [if_neg hne]
  obtain ⟨init, last, hS⟩ : ∃ init last, S = init ++ [last] :=
    ⟨S.dropLast, S.getLast hne, (List.dropLast_append_getLast hne).symm⟩
  have hl := NF_elem S h last (by simp [hS])
  have hr : S.reverse = last :: init.reverse := by simp [hS]
  rw [hr]
  obtain ⟨c, l, rfl⟩ : ∃ c l, last = c :: l := by
    cases last with
    | nil => exact absurd rfl hl.1
    | cons c l => exact ⟨c, l, rfl⟩
  have hc : c ≠ '/' := fun hh => hl.2.2 (hh ▸ List.mem_cons_self _ _)
  cases hi : init.reverse with
  | nil => simp [Join, List.intercalate, hc]
  | cons y ys => simp [Join, List.intercalate, List.intersperse, hc]

theorem splitOn_render (S : List Str) (h : NF S) (hne : S ≠ []) :
    (render S).splitOn '/' = S.reverse := by
  unfold render Join
  rw [if_neg hne]
  apply List.splitOn_intercalate
  · intro l hl
    exact (NF_elem S h l (List.mem_reverse.mp hl)).2.2
  · simpa using hne

/-- The directory of a path that is not rooted: the kept elements of its directory
part. -/
theorem Dir_relative (p : Str) (hrel : p.head? ≠ some '/') : Dir p = render (stackOf p) := by
  unfold Dir stackOf
  by_cases hs : '/' ∈ p
  · obtain ⟨a, b, rfl, hb⟩ := exists_last_sep p hs
    rw [dirPrefix_sep a b hb, splitOn_append_sep, splitOn_no_sep b hb]
    have hq : (a ++ ['/']).head? ≠ some '/' := by
      cases a with
      | nil => simp at hrel
      | cons c a => simpa using hrel
    have hd : (a.splitOn '/' ++ [b]).dropLast = a.splitOn '/' := by simp
    rw [hd]
    unfold Clean
    rw [if_neg (by simp)]
    simp only [hq, decide_False, Bool.false_eq_true, if_false]
    have hsp : (a ++ ['/']).splitOn '/' = a.splitOn '/' ++ [[]] := by
      have := splitOn_append_sep a []
      simpa [List.splitOn, List.splitOnP_nil] using this
    rw [hsp, List.foldl_append]
    simp only [List.foldl_cons, List.foldl_nil]
    have hce : ∀ S, cleanElem false S [] = S := by intro S; simp [cleanElem]
    rw [hce]
    unfold render
    simp
  · rw [dirPrefix_no_sep p hs, splitOn_no_sep p hs]
    simp [Clean, render]

theorem Dir_render (S : List Str) (h : NF S) (hne : S ≠ []) :
    Dir (render S) = render S.tail := by
  rw [Dir_relative _ (render_relative S h hne).2]
  unfold stackOf
  rw [splitOn_render S h hne, List.dropLast_reverse]
  cases S with
  | nil => exact absurd rfl hne
  | cons e S => rw [List.tail_cons, foldl_reverse_NF S (NF_tail e S h)]

theorem pathsLoop_render (S : List Str) (h : NF S) (fuel : Nat) (hf : S.length < fuel)
    (base : Str) (acc : List Str) (hb : Dir base = render S) :
    pathsLoop fuel base acc = some (acc ++ rendersFrom S) := by
  induction S generalizing fuel base acc with
  | nil =>
    cases fuel with
    | zero => simp at hf
    | succ n => simp [pathsLoop, hb, render, rendersFrom]
  | cons e S ih =>
    cases fuel with
    | zero => simp at hf
    | succ n =>
      simp only [pathsLoop, hb]
      rw [if_neg (render_ne_dot _ h (by simp))]
      have := ih (NF_tail e S h) n (by simpa using hf) (render (e :: S)) (acc ++ [render (e :: S)])
        (by rw [Dir_render _ h (by simp)]; rfl)
      rw [this]
      simp [rendersFrom]

/-- For a destination whose remainder after the first character is not rooted,
`pathsToCreate` returns, as soon as the fuel exceeds the length of the remainder: the
paths of the kept elements of the directory part, the shortest first. -/
theorem pathsToCreate_relative (c : Char) (p : Str) (hrel : p.head? ≠ some '/')
    (fuel : Nat) (hf : p.length < fuel) :
    pathsToCreate fuel (c :: p) = Res.ok (rendersFrom (stackOf p)).reverse := by
  unfold pathsToCreate
  simp only
  rw [pathsLoop_render (stackOf p) (NF_stackOf p) fuel
    (lt_of_le_of_lt (length_stackOf p) hf) p [] (Dir_relative p hrel)]
  simp

theorem NF_of_normal (S : List Str) (h : ∀ e ∈ S, normalElem e) : NF S := by
  induction S with
  | nil => trivial
  | cons e S ih =>
    exact Or.inr ⟨h e (List.mem_cons_self _ _), ih (fun x hx => h x (List.mem_cons_of_mem _ hx))⟩

theorem rendersFrom_reverse (cs : List Str) :
    (rendersFrom cs.reverse).reverse = ancestorDirs cs := by
  induction cs using List.reverseRecOn with
  | nil => rfl
  | append_singleton cs e ih =>
    rw [List.reverse_append, List.reverse_singleton, List.singleton_append]
    simp only [rendersFrom, List.reverse_cons, ih]
    unfold ancestorDirs
    rw [List.length_append, List.length_singleton, List.range_succ, List.map_append]
    congr 1
    · apply List.map_congr_left
      intro k hk
      rw [List.take_append_of_le_length (by simpa using Nat.succ_le_of_lt (List.mem_range.mp hk))]
    · have ht : List.take (cs.length + 1) (cs ++ [e]) = cs ++ [e] :=
        List.take_of_length_le (by simp)
      simp [render, ht]

/-- For a destination made of a first character and ordinary path elements separated by
single slashes, `pathsToCreate` returns the ancestor directories, the nearest to the root
first. -/
theorem pathsToCreate_clean (c : Char) (cs : List Str) (f : Str)
    (hn : ∀ e ∈ cs ++ [f], normalElem e) (fuel : Nat)
    (hf : (Join (cs ++ [f]) ['/']).length < fuel) :
    pathsToCreate fuel (c :: Join (cs ++ [f]) ['/']) = Res.ok (ancestorDirs cs) := by
  have hS : NF (cs ++ [f]).reverse := NF_of_normal _ (fun e he => hn e (List.mem_reverse.mp he))
  have hne : (cs ++ [f]).reverse ≠ [] := by simp
  have hr : render (cs ++ [f]).reverse = Join (cs ++ [f]) ['/'] := by
    unfold render
    rw [if_neg hne, List.reverse_reverse]
  have hrel := (render_relative _ hS hne).2
  rw [hr] at hrel
  rw [pathsToCreate_relative c _ hrel fuel hf]
  have hst : stackOf (Join (cs ++ [f]) ['/']) = cs.reverse := by
    unfold stackOf
    rw [← hr, splitOn_render _ hS hne, List.reverse_reverse]
    have : (cs ++ [f]).dropLast = cs := by simp
    rw [this]
    have := foldl_reverse_NF cs.reverse
      (NF_of_normal _ (fun e he => hn e (List.mem_append_left _ (List.mem_reverse.mp he))))
    rwa [List.reverse_reverse] at this
  rw [hst, rendersFrom_reverse]

/-! ## The set `created` and the order of the directory entries -/

theorem pathsLoop_acc (fuel : Nat) (b : Str) (acc : List Str) :
    pathsLoop fuel b acc = (pathsLoop fuel b []).map (fun L => acc ++ L) := by
  induction fuel generalizing b acc with
  | zero => rfl
  | succ n ih =>
    simp only [pathsLoop]
    split
    · simp
    · rw [ih, ih (Dir b) ([] ++ [Dir b])]
      cases pathsLoop n (Dir b) [] <;> simp

theorem pathsLoop_succ (fuel : Nat) (b : Str) (L : List Str)
    (h : pathsLoop fuel b [] = some L) : pathsLoop (fuel + 1) b [] = some L := by
  induction fuel generalizing b L with
  | zero => simp [pathsLoop] at h
  | succ n ih =>
    rw [pathsLoop] at h ⊢
    split
    · rename_i hd
      rw [if_pos hd] at h
      exact h
    · rename_i hd
      rw [if_neg hd] at h
      rw [pathsLoop_acc] at h ⊢
      cases hq : pathsLoop n (Dir b) [] with
      | none => rw [hq] at h; simp at h
      | some L2 =>
        rw [hq] at h
        rw [ih _ _ hq]
        exact h

theorem pathsLoop_suffix (fuel : Nat) (b : Str) (L1 L2 : List Str) (x : Str)
    (h : pathsLoop fuel b [] = some (L1 ++ x :: L2)) : pathsLoop fuel x [] = some L2 := by
  induction fuel generalizing b L1 with
  | zero => simp [pathsLoop] at h
  | succ n ih =>
    rw [pathsLoop] at h
    split at h
    · simp at h
    · rw [pathsLoop_acc] at h
      cases hq : pathsLoop n (Dir b) [] with
      | none => rw [hq] at h; simp at h
      | some L =>
        rw [hq] at h
        simp only [Option.map_some', List.nil_append, List.singleton_append,
          Option.some.injEq] at h
        cases L1 with
        | nil =>
          simp only [List.nil_append, List.cons.injEq] at h
          rw [← h.1, ← h.2]
          exact pathsLoop_succ _ _ _ hq
        | cons y L1 =>
          simp only [List.cons_append, List.cons.injEq] at h
          rw [h.2] at hq
          exact pathsLoop_succ _ _ _ (ih _ _ hq)

theorem Chained_of_pathsLoop (fuel : Nat) (b : Str) (L : List Str)
    (h : pathsLoop fuel b [] = some L) : Chained fuel L.reverse := by
  intro pre x post hP
  have hL : L = post.reverse ++ x :: pre.reverse := by
    have := congrArg List.reverse hP
    simpa using this
  rw [hL] at h
  exact pathsLoop_suffix fuel b _ _ x h

theorem createTreeLoop_inv (env : Env) (fuel : Nat) (todo done : List Str)
    (tarw : List TarEntry) (created : List Str) (r : List TarEntry × List Str)
    (hch : Chained fuel (done ++ todo)) (hinv : CreatedOk fuel created)
    (hdone : done.Sublist created)
    (hdirs : tarw.filter isDirEntry = created.map dirEntry)
    (h : createTreeLoop env todo tarw created = Res.ok r) :
    CreatedOk fuel r.2 ∧ (done ++ todo).Sublist r.2 ∧
      r.1.filter isDirEntry = r.2.map dirEntry ∧ tarw <+: r.1 := by
  induction todo generalizing done tarw created with
  | nil =>
    simp only [createTreeLoop, Res.ok.injEq] at h
    subst h
    simpa using ⟨hinv, hdone, hdirs⟩
  | cons x rest ih =>
    have hx := hch done x rest rfl
    have hch2 : Chained fuel (done ++ [x] ++ rest) := by
      simpa [List.append_assoc] using hch
    simp only [createTreeLoop] at h
    split at h
    · rename_i hmem
      obtain ⟨L, hL, hsub⟩ := hinv.2 x hmem
      rw [hx] at hL
      simp only [Option.some.injEq] at hL
      subst hL
      rw [List.reverse_reverse] at hsub
      have := ih (done ++ [x]) tarw created hch2 hinv hsub hdirs h
      simpa [List.append_assoc] using this
    · rename_i hmem
      split at h
      · have hinv2 : CreatedOk fuel (created ++ [x]) := by
          constructor
          · rw [List.nodup_append]
            refine ⟨hinv.1, List.nodup_singleton x, ?_⟩
            intro a ha hb
            simp only [List.mem_singleton] at hb
            exact hmem (hb ▸ ha)
          · intro c hc
            rcases List.mem_append.mp hc with hc | hc
            · obtain ⟨L, hL, hsub⟩ := hinv.2 c hc
              exact ⟨L, hL, hsub.trans (List.sublist_append_left _ _)⟩
            · simp only [List.mem_singleton] at hc
              subst hc
              refine ⟨done.reverse, hx, ?_⟩
              rw [List.reverse_reverse]
              exact List.Sublist.append hdone (List.Sublist.refl _)
        have hdirs2 : (tarw ++ [dirEntry x]).filter isDirEntry
            = (created ++ [x]).map dirEntry := by
          simp [List.filter_append, hdirs, isDirEntry, dirEntry]
        have := ih (done ++ [x]) (tarw ++ [dirEntry x]) (created ++ [x]) hch2 hinv2
          (List.Sublist.append hdone (List.Sublist.refl _)) hdirs2 h
        refine ⟨this.1, by simpa [List.append_assoc] using this.2.1, this.2.2.1, ?_⟩
        exact (List.prefix_append _ _).trans this.2.2.2
      · simp at h

theorem createTree_inv (env : Env) (fuel : Nat) (tarw : List TarEntry) (dst : Str)
    (created : List Str) (r : List TarEntry × List Str)
    (hinv : CreatedOk fuel created)
    (hdirs : tarw.filter isDirEntry = created.map dirEntry)
    (h : createTree env fuel tarw dst created = Res.ok r) :
    ∃ paths, pathsToCreate fuel dst = Res.ok paths ∧
      CreatedOk fuel r.2 ∧ paths.Sublist r.2 ∧
      r.1.filter isDirEntry = r.2.map dirEntry ∧ tarw <+: r.1 := by
  unfold createTree at h
  cases hp : pathsToCreate fuel dst with
  | ok paths =>
    rw [hp] at h
    simp only [Res.bind] at h
    have hch : Chained fuel paths := by
      unfold pathsToCreate at hp
      cases dst with
      | nil => simp at hp
      | cons c base =>
        simp only at hp
        cases hq : pathsLoop fuel base [] with
        | none => rw [hq] at hp; simp at hp
        | some L =>
          rw [hq] at hp
          simp only [Res.ok.injEq] at hp
          rw [← hp]
          exact Chained_of_pathsLoop fuel base L hq
    have := createTreeLoop_inv env fuel paths [] tarw created r (by simpa using hch) hinv
      (List.nil_sublist _) hdirs h
    exact ⟨paths, rfl, this.1, by simpa using this.2.1, this.2.2.1, this.2.2.2⟩
  | error e => rw [hp] at h; simp [Res.bind] at h
  | panic => rw [hp] at h; simp [Res.bind] at h
  | hang => rw [hp] at h; simp [Res.bind] at h

theorem copiedEntry_not_dir (env : Env) (sd : Str × Str)
    (h : (sd.2.drop 1).getLast? ≠ some '/') :
    (copiedEntry env sd).filter isDirEntry = [] := by
  have h2 : ¬ (List.tail sd.2).getLast? = some '/' := by simpa using h
  unfold copiedEntry
  split
  · rfl
  · split <;> simp [isDirEntry, storedTypeflag, h2]

theorem dataLoop_dirs (env : Env) (fuel : Nat) (ms : List (Str × Str)) (st st2 : DataState)
    (hinv : CreatedOk fuel st.created)
    (hdirs : st.out.filter isDirEntry = st.created.map dirEntry)
    (hsl : ∀ sd ∈ ms, (sd.2.drop 1).getLast? ≠ some '/')
    (h : dataLoop env fuel ms st = Res.ok st2) :
    CreatedOk fuel st2.created ∧ st2.out.filter isDirEntry = st2.created.map dirEntry ∧
    st.out <+: st2.out ∧
    ∀ ms1 src dst ms2, ms = ms1 ++ (src, dst) :: ms2 →
      ∃ paths pre post, pathsToCreate fuel dst = Res.ok paths ∧
        st2.out = pre ++ copiedEntry env (src, dst) ++ post ∧
        (paths.map dirEntry).Sublist pre := by
  induction ms generalizing st with
  | nil =>
    simp only [dataLoop, Res.ok.injEq] at h
    subst h
    exact ⟨hinv, hdirs, List.prefix_refl _, by simp⟩
  | cons sd ms ih =>
    obtain ⟨src0, dst0⟩ := sd
    simp only [dataLoop] at h
    cases ht : createTree env fuel st.out dst0 st.created with
    | ok tc =>
      rw [ht] at h
      simp only [Res.bind] at h
      cases hc : copyToTarAndDigest env tc.1 st.md5buf src0 dst0 with
      | ok r =>
        rw [hc] at h
        simp only at h
        obtain ⟨c1, _, _⟩ := copy_ok _ _ _ _ _ _ hc
        obtain ⟨paths, hp, t1, t2, t3, t4⟩ := createTree_inv _ _ _ _ _ _ hinv hdirs ht
        have hd2 : r.1.filter isDirEntry = tc.2.map dirEntry := by
          rw [c1, List.filter_append,
            copiedEntry_not_dir env (src0, dst0) (hsl _ (List.mem_cons_self _ _)),
            List.append_nil, t3]
        obtain ⟨i1, i2, i3, i4⟩ := ih _ t1 hd2
          (fun sd hsd => hsl sd (List.mem_cons_of_mem _ hsd)) h
        simp only at i3
        refine ⟨i1, i2, ?_, ?_⟩
        · exact t4.trans ((c1 ▸ List.prefix_append _ _).trans i3)
        · intro ms1 src dst ms2 hms
          cases ms1 with
          | nil =>
            simp only [List.nil_append, List.cons.injEq, Prod.mk.injEq] at hms
            obtain ⟨⟨rfl, rfl⟩, _⟩ := hms
            obtain ⟨post, hpost⟩ := i3
            refine ⟨paths, tc.1, post, hp, ?_, ?_⟩
            · rw [← hpost, c1]
            · have : (paths.map dirEntry).Sublist (tc.2.map dirEntry) := t2.map _
              rw [← t3] at this
              exact this.trans (List.filter_sublist _)
          | cons m ms1 =>
            simp only [List.cons_append, List.cons.injEq] at hms
            exact i4 ms1 src dst ms2 hms.2
      | error e => rw [hc] at h; simp at h
      | panic => rw [hc] at h; simp at h
      | hang => rw [hc] at h; simp at h
    | error e => rw [ht] at h; simp [Res.bind] at h
    | panic => rw [ht] at h; simp [Res.bind] at h
    | hang => rw [ht] at h; simp [Res.bind] at h

theorem dataLoop_append (env : Env) (fuel : Nat) (a b : List (Str × Str)) (st : DataState) :
    dataLoop env fuel (a ++ b) st = (dataLoop env fuel a st).bind (dataLoop env fuel b) := by
  induction a generalizing st with
  | nil => simp [dataLoop, Res.bind]
  | cons sd a ih =>
    obtain ⟨src, dst⟩ := sd
    simp only [List.cons_append, dataLoop]
    cases createTree env fuel st.out dst st.created with
    | ok tc =>
      simp only [Res.bind]
      cases copyToTarAndDigest env tc.1 st.md5buf src dst with
      | ok r => exact ih _
      | error e => rfl
      | panic => rfl
      | hang => rfl
    | error e => rfl
    | panic => rfl
    | hang => rfl

theorem dataEntries_eq (env : Env) (fuel : Nat) (info : Info) :
    dataEntries env fuel info = dataLoop env fuel (info.Files ++ info.ConfigFiles) {} := by
  rw [dataLoop_append]
  rfl

theorem createTreeLoop_total (env : Env) (hok : ∀ h, env.tarHeaderOk h = true)
    (paths : List Str) (tarw : List TarEntry) (created : List Str) :
    ∃ r, createTreeLoop env paths tarw created = Res.ok r := by
  induction paths generalizing tarw created with
  | nil => exact ⟨_, rfl⟩
  | cons p ps ih =>
    simp only [createTreeLoop, hok, if_true]
    split
    · exact ih _ _
    · exact ih _ _

theorem copy_total (env : Env) (hok : ∀ h, env.tarHeaderOk h = true)
    (tarw : List TarEntry) (md5w src dst : Str) (f : SrcFile)
    (hf : env.openFile src = some f) (hr : f.readErr = false) (hd : dst ≠ [])
    (hc : storedTypeflag (dst.drop 1) = Typeflag.TypeDir → f.content = []) :
    ∃ r, copyToTarAndDigest env tarw md5w src dst = Res.ok r := by
  unfold copyToTarAndDigest
  rw [hf]
  simp only
  split
  · exact ⟨_, rfl⟩
  · cases dst with
    | nil => exact absurd rfl hd
    | cons c name =>
      simp only [List.drop_succ_cons, List.drop_zero] at hc
      have hno : ¬ (f.readErr = true ∨ storedTypeflag name = Typeflag.TypeDir ∧ f.content ≠ []) := by
        rintro (h | ⟨h1, h2⟩)
        · rw [hr] at h; exact absurd h (by decide)
        · exact h2 (hc h1)
      simp only [hok, if_true, if_neg hno]
      exact ⟨_, rfl⟩

theorem dataLoop_total (env : Env) (fuel : Nat) (hok : ∀ h, env.tarHeaderOk h = true)
    (ms : List (Str × Str)) (st : DataState)
    (hsrc : ∀ sd ∈ ms, ∃ f, env.openFile sd.1 = some f ∧ f.readErr = false ∧
      (storedTypeflag (sd.2.drop 1) = Typeflag.TypeDir → f.content = []))
    (hdst : ∀ sd ∈ ms, ∃ paths, pathsToCreate fuel sd.2 = Res.ok paths) :
    ∃ st2, dataLoop env fuel ms st = Res.ok st2 := by
  induction ms generalizing st with
  | nil => exact ⟨st, rfl⟩
  | cons sd ms ih =>
    obtain ⟨src, dst⟩ := sd
    obtain ⟨f, hf, hr, hcd⟩ := hsrc (src, dst) (List.mem_cons_self _ _)
    obtain ⟨paths, hp⟩ := hdst (src, dst) (List.mem_cons_self _ _)
    have hd : dst ≠ [] := by
      intro h
      simp [h, pathsToCreate] at hp
    obtain ⟨tc, htc⟩ := createTreeLoop_total env hok paths st.out st.created
    simp only at hf hp hcd
    obtain ⟨r, hr2⟩ := copy_total env hok tc.1 st.md5buf src dst f hf hr hd hcd
    simp only [dataLoop, createTree, hp, Res.bind, htc, hr2]
    exact ih _ (fun sd h => hsrc sd (List.mem_cons_of_mem _ h))
      (fun sd h => hdst sd (List.mem_cons_of_mem _ h))

theorem dirEntry_injective : Function.Injective dirEntry := by
  intro a b h
  simp only [dirEntry, TarEntry.mk.injEq, TarHeader.mk.injEq, and_true] at h
  exact List.append_cancel_right h

/-- The directory entries of the data archive.  When every source can be opened and read,
the tar writer accepts the headers, every destination is a slash followed by a path that
is not rooted and does not end in a slash, and the fuel exceeds the lengths of the
destinations, `createDataTarGz` builds the archive; no two directory entries have the same
name; and for every mapping the archive is `pre`, then the entry of the mapping, then
`post`, where the entries of the directories of `ancestors` occur in `pre`, the nearest to
the root first, and each of them occurs exactly once in the whole archive. -/
theorem dataEntries_directories (env : Env) (fuel : Nat) (info : Info)
    (hok : ∀ h, env.tarHeaderOk h = true)
    (hsrc : ∀ sd ∈ info.Files ++ info.ConfigFiles,
      ∃ f, env.openFile sd.1 = some f ∧ f.readErr = false)
    (hdst : ∀ sd ∈ info.Files ++ info.ConfigFiles,
      ∃ p, sd.2 = '/' :: p ∧ p.head? ≠ some '/' ∧ p.getLast? ≠ some '/' ∧ p.length < fuel) :
    ∃ st, dataEntries env fuel info = Res.ok st ∧
      ((st.out.filter isDirEntry).map (fun e => e.hdr.Name)).Nodup ∧
      ∀ ms1 src dst ms2, info.Files ++ info.ConfigFiles = ms1 ++ (src, dst) :: ms2 →
        ∃ pre post, st.out = pre ++ copiedEntry env (src, dst) ++ post ∧
          (∀ e ∈ copiedEntry env (src, dst), isFileEntry e = true) ∧
          ((ancestors dst).map dirEntry).Sublist pre ∧
          ∀ a ∈ ancestors dst, st.out.count (dirEntry a) = 1 := by
  have hpaths : ∀ sd ∈ info.Files ++ info.ConfigFiles,
      pathsToCreate fuel sd.2 = Res.ok (ancestors sd.2) := by
    intro sd hsd
    obtain ⟨p, hp, hrel, _, hlen⟩ := hdst sd hsd
    rw [hp]
    exact pathsToCreate_relative '/' p hrel fuel hlen
  have hsl : ∀ sd ∈ info.Files ++ info.ConfigFiles, (sd.2.drop 1).getLast? ≠ some '/' := by
    intro sd hsd
    obtain ⟨p, hp, _, hl, _⟩ := hdst sd hsd
    rw [hp]
    exact hl
  have hcopy : ∀ sd ∈ info.Files ++ info.ConfigFiles,
      ∃ f, env.openFile sd.1 = some f ∧ f.readErr = false ∧
        (storedTypeflag (sd.2.drop 1) = Typeflag.TypeDir → f.content = []) := by
    intro sd hsd
    obtain ⟨f, hf, hr⟩ := hsrc sd hsd
    refine ⟨f, hf, hr, ?_⟩
    intro ht
    unfold storedTypeflag at ht
    rw [if_neg (hsl sd hsd)] at ht
    exact absurd ht (by decide)
  obtain ⟨st, hst⟩ := dataLoop_total env fuel hok (info.Files ++ info.ConfigFiles) {} hcopy
    (fun sd hsd => ⟨_, hpaths sd hsd⟩)
  have h0 : CreatedOk fuel ({} : DataState).created :=
    ⟨List.nodup_nil, fun c hc => absurd hc (List.not_mem_nil c)⟩
  obtain ⟨i1, i2, _, i4⟩ := dataLoop_dirs env fuel _ {} st h0 rfl hsl hst
  have hnd : (st.out.filter isDirEntry).Nodup := by
    rw [i2]
    exact i1.1.map dirEntry_injective
  refine ⟨st, (dataEntries_eq env fuel info).trans hst, ?_, ?_⟩
  · rw [i2, List.map_map]
    have : ((fun e => e.hdr.Name) ∘ dirEntry) = fun p => p ++ ['/'] := rfl
    rw [this]
    exact i1.1.map (fun a b h => List.append_cancel_right h)
  · intro ms1 src dst ms2 hms
    obtain ⟨paths, pre, post, hp, hout, hsub⟩ := i4 ms1 src dst ms2 hms
    have hmem : (src, dst) ∈ info.Files ++ info.ConfigFiles := by
      rw [hms]; simp
    have hpe := hpaths (src, dst) hmem
    simp only at hpe
    rw [hpe] at hp
    simp only [Res.ok.injEq] at hp
    subst hp
    refine ⟨pre, post, hout, ?_, hsub, ?_⟩
    · intro e he
      have := copiedEntry_file env (src, dst) (hsl _ hmem)
      rw [← this] at he
      exact (List.mem_filter.mp he).2
    · intro a ha
      have hin : dirEntry a ∈ st.out := by
        rw [hout]
        exact List.mem_append_left _ (List.mem_append_left _
          (hsub.subset (List.mem_map_of_mem _ ha)))
      have hin2 : dirEntry a ∈ st.out.filter isDirEntry :=
        List.mem_filter.mpr ⟨hin, by simp [isDirEntry, dirEntry]⟩
      have hc := List.count_eq_one_of_mem hnd hin2
      rwa [List.count_filter (by simp [isDirEntry, dirEntry])] at hc

theorem ancestors_clean (c : Char) (cs : List Str) (f : Str)
    (hn : ∀ e ∈ cs ++ [f], normalElem e) :
    ancestors (c :: Join (cs ++ [f]) ['/']) = ancestorDirs cs := by
  have h := pathsToCreate_clean c cs f hn _ (Nat.lt_succ_self _)
  have hS : NF (cs ++ [f]).reverse := NF_of_normal _ (fun e he => hn e (List.mem_reverse.mp he))
  have hr : render (cs ++ [f]).reverse = Join (cs ++ [f]) ['/'] := by
    unfold render
    rw [if_neg (by simp), List.reverse_reverse]
  have hrel := (render_relative _ hS (by simp)).2
  rw [hr] at hrel
  rw [pathsToCreate_relative c _ hrel _ (Nat.lt_succ_self _)] at h
  simp only [Res.ok.injEq] at h
  exact h


theorem Join_ends_with (cs : List Str) (f : Str) :
    ∃ A, Join (cs ++ [f]) ['/'] = A ++ f := by
  induction cs with
  | nil => exact ⟨[], by simp [Join, List.intercalate]⟩
  | cons c cs ih =>
    obtain ⟨A, hA⟩ := ih
    cases hx : cs ++ [f] with
    | nil => simp at hx
    | cons y ys =>
      refine ⟨c ++ ['/'] ++ A, ?_⟩
      have e : Join (c :: cs ++ [f]) ['/'] = c ++ (['/'] ++ Join (cs ++ [f]) ['/']) := by
        rw [List.cons_append, hx]
        simp [Join, List.intercalate, List.intersperse]
      rw [e, hA]
      simp

theorem clean_not_trailing (cs : List Str) (f : Str) (hf : normalElem f) :
    (Join (cs ++ [f]) ['/']).getLast? ≠ some '/' := by
  obtain ⟨A, hA⟩ := Join_ends_with cs f
  rw [hA]
  intro h
  have hne : f ≠ [] := hf.1
  rw [List.getLast?_append_of_ne_nil _ hne] at h
  exact hf.2.2.2 (List.mem_of_getLast?_eq_some h)

theorem clean_relative (cs : List Str) (f : Str) (hn : ∀ e ∈ cs ++ [f], normalElem e) :
    (Join (cs ++ [f]) ['/']).head? ≠ some '/' := by
  have hS : NF (cs ++ [f]).reverse := NF_of_normal _ (fun e he => hn e (List.mem_reverse.mp he))
  have hr : render (cs ++ [f]).reverse = Join (cs ++ [f]) ['/'] := by
    unfold render
    rw [if_neg (by simp), List.reverse_reverse]
  have := (render_relative _ hS (by simp)).2
  rwa [hr] at this

/-- The directory entries of the data archive, for destinations made of ordinary path
elements.  When every source can be opened and read, the tar writer accepts the headers,
every destination is a slash followed by ordinary path elements separated by single
slashes, and the fuel is at least the length of every destination, `createDataTarGz`
builds the archive; no two directory entries have the same name; and for every mapping
the archive is `pre`, then the entry of the mapping (a file entry), then `post`, where the
entries of the ancestor directories of the destination (`ancestorDirs`: the non-empty
prefixes of its directory elements) occur in `pre`, the nearest to the root first, and each
of them occurs exactly once in the whole archive. -/
theorem dataEntries_directories_clean (env : Env) (fuel : Nat) (info : Info)
    (hok : ∀ h, env.tarHeaderOk h = true)
    (hsrc : ∀ sd ∈ info.Files ++ info.ConfigFiles,
      ∃ f, env.openFile sd.1 = some f ∧ f.readErr = false)
    (hdst : ∀ sd ∈ info.Files ++ info.ConfigFiles,
      ∃ cs f, sd.2 = '/' :: Join (cs ++ [f]) ['/'] ∧ (∀ e ∈ cs ++ [f], normalElem e) ∧
        sd.2.length ≤ fuel) :
    ∃ st, dataEntries env fuel info = Res.ok st ∧
      ((st.out.filter isDirEntry).map (fun e => e.hdr.Name)).Nodup ∧
      ∀ ms1 src cs f ms2, (∀ e ∈ cs ++ [f], normalElem e) →
        info.Files ++ info.ConfigFiles =
          ms1 ++ (src, '/' :: Join (cs ++ [f]) ['/']) :: ms2 →
        ∃ pre post,
          st.out = pre ++ copiedEntry env (src, '/' :: Join (cs ++ [f]) ['/']) ++ post ∧
          (∀ e ∈ copiedEntry env (src, '/' :: Join (cs ++ [f]) ['/']), isFileEntry e = true) ∧
          ((ancestorDirs cs).map dirEntry).Sublist pre ∧
          ∀ a ∈ ancestorDirs cs, st.out.count (dirEntry a) = 1 := by
  have hd2 : ∀ sd ∈ info.Files ++ info.ConfigFiles,
      ∃ p, sd.2 = '/' :: p ∧ p.head? ≠ some '/' ∧ p.getLast? ≠ some '/' ∧ p.length < fuel := by
    intro sd hsd
    obtain ⟨cs, f, he, hn, hl⟩ := hdst sd hsd
    refine ⟨_, he, clean_relative cs f hn, clean_not_trailing cs f (hn f (by simp)), ?_⟩
    rw [he] at hl
    simpa using Nat.lt_of_succ_le hl
  obtain ⟨st, hst, hnd, hall⟩ := dataEntries_directories env fuel info hok hsrc hd2
  refine ⟨st, hst, hnd, ?_⟩
  intro ms1 src cs f ms2 hn hms
  obtain ⟨pre, post, h1, h2, h3, h4⟩ := hall ms1 src _ ms2 hms
  rw [ancestors_clean '/' cs f hn] at h3 h4
  exact ⟨pre, post, h1, h2, h3, h4⟩

/-! ## Failures of the signer -/

theorem memberNames_append (a b : List ArItem) :
    memberNames (a ++ b) = memberNames a ++ memberNames b := by
  induction a with
  | nil => rfl
  | cons x a ih =>
    cases x <;> simp [memberNames, ih]

theorem put_names (env : Env) (w : ArWriter) (item : ArItem) :
    ∀ x ∈ memberNames (w.put env item).1.items,
      x ∈ memberNames w.items ∨ x ∈ memberNames [item] := by
  intro x hx
  unfold ArWriter.put at hx
  split at hx
  · simp only [memberNames_append, List.mem_append] at hx
    exact hx
  · exact Or.inl hx

theorem addArFile_names (env : Env) (w : ArWriter) (name body : Str) (sg : Option signer) :
    ∀ x ∈ memberNames (addArFile env w name body sg).1.items,
      x ∈ memberNames w.items ∨ x = name := by
  intro x hx
  unfold addArFile at hx
  simp only at hx
  split at hx
  · rcases put_names _ _ _ x hx with h | h
    · rcases put_names _ _ _ x h with h | h
      · exact Or.inl h
      · right; simpa [memberNames] using h
    · simp [memberNames] at h
  · rcases put_names _ _ _ x hx with h | h
    · exact Or.inl h
    · right; simpa [memberNames] using h

/-- When `sign` returns an error, `Deb.Package` returns an error after the three members
and writes no member `_gpgorigin`. -/
theorem writeDeb_sign_error (env : Env) (info : Info) (control data : Str) (e : Err)
    (hs : (signerOf env info control data).sign env = Res.error e) :
    (∃ e2, (writeDeb env info control data).2 = Res.error e2) ∧
      "_gpgorigin".toList ∉ memberNames (writeDeb env info control data).1.items := by
  have hput : ∀ x ∈ memberNames (ArWriter.put env {} ArItem.globalHeader).1.items, False := by
    intro x hx
    rcases put_names _ _ _ x hx with h | h <;> simp [memberNames] at h
  unfold writeDeb
  simp only
  split
  · exact ⟨⟨_, rfl⟩, fun h => hput _ h⟩
  · split
    · rename_i w1 sg1 e1 a1
      refine ⟨⟨_, rfl⟩, fun h => ?_⟩
      have := addArFile_names env _ _ _ _ _ (by rw [a1]; exact h)
      rcases this with h2 | h2
      · exact hput _ h2
      · revert h2; decide
    · rename_i w1 sg1 a1
      have n1 : ∀ x ∈ memberNames w1.items, x = "debian-binary".toList := by
        intro x hx
        rcases addArFile_names env _ _ _ _ x (by rw [a1]; exact hx) with h2 | h2
        · exact absurd h2 (fun h => hput _ h)
        · exact h2
      split
      · rename_i w2 sg2 e2 a2
        refine ⟨⟨_, rfl⟩, fun h => ?_⟩
        rcases addArFile_names env _ _ _ _ _ (by rw [a2]; exact h) with h2 | h2
        · have := n1 _ h2; revert this; decide
        · revert h2; decide
      · rename_i w2 sg2 a2
        have n2 : ∀ x ∈ memberNames w2.items,
            x = "debian-binary".toList ∨ x = "control.tar.gz".toList := by
          intro x hx
          rcases addArFile_names env _ _ _ _ x (by rw [a2]; exact hx) with h2 | h2
          · exact Or.inl (n1 _ h2)
          · exact Or.inr h2
        split
        · rename_i w3 sg3 e3 a3
          refine ⟨⟨_, rfl⟩, fun h => ?_⟩
          rcases addArFile_names env _ _ _ _ _ (by rw [a3]; exact h) with h2 | h2
          · rcases n2 _ h2 with h3 | h3 <;> revert h3 <;> decide
          · revert h2; decide
        · rename_i w3 sg3 a3
          have n3 : "_gpgorigin".toList ∉ memberNames w3.items := by
            intro h
            rcases addArFile_names env _ _ _ _ _ (by rw [a3]; exact h) with h2 | h2
            · rcases n2 _ h2 with h3 | h3 <;> revert h3 <;> decide
            · revert h2; decide
          obtain ⟨_, _, s1⟩ := addArFile_ok _ _ _ _ _ _ _ a1
          obtain ⟨_, _, s2⟩ := addArFile_ok _ _ _ _ _ _ _ a2
          obtain ⟨_, _, s3⟩ := addArFile_ok _ _ _ _ _ _ _ a3
          have hsg : sg3.getD { info := info } = signerOf env info control data := by
            subst s1 s2 s3
            simp [signerOf]
          rw [hsg, hs]
          exact ⟨⟨_, rfl⟩, n3⟩

theorem parseLoop_spec (pk : List Next) (priv : Option PrivateKey) (uid : Option Str) :
    parseLoop pk priv uid =
      if Next.err ∈ pk then Res.error Err.packets
      else Res.ok (priv.orElse (fun _ => firstPrivateKey pk),
        uid.orElse (fun _ => firstUserId pk)) := by
  induction pk generalizing priv uid with
  | nil => cases priv <;> cases uid <;> simp [parseLoop, firstPrivateKey, firstUserId]
  | cons n pk ih =>
    cases n with
    | err => simp [parseLoop]
    | pkt p =>
      cases p with
      | PrivateKey k =>
        rw [parseLoop, ih]
        by_cases he : Next.err ∈ pk
        · simp [he]
        · cases priv <;> cases uid <;> simp [he, firstPrivateKey, firstUserId]
      | UserId u =>
        rw [parseLoop, ih]
        by_cases he : Next.err ∈ pk
        · simp [he]
        · cases priv <;> cases uid <;> simp [he, firstPrivateKey, firstUserId]
      | other =>
        rw [parseLoop, ih]
        by_cases he : Next.err ∈ pk
        · simp [he]
        · cases priv <;> cases uid <;> simp [he, firstPrivateKey, firstUserId]

/-- The failures that `sign` checks: with a signing key, a key that cannot be decoded, a
packet that cannot be read, a missing private key packet, a missing user id packet, a
failed decryption and a failed `clearsign.Encode` each make `sign` return an error. -/
theorem sign_checked_failures (env : Env) (s : signer) (hk : s.info.DebSigningKey ≠ []) :
    (env.armorDecode s.info.DebSigningKey = none → s.sign env = Res.error Err.armor) ∧
    (∀ pk, env.armorDecode s.info.DebSigningKey = some pk →
      (Next.err ∈ pk → s.sign env = Res.error Err.packets) ∧
      (Next.err ∉ pk → firstPrivateKey pk = none → s.sign env = Res.error Err.noPrivateKey) ∧
      (∀ k, Next.err ∉ pk → firstPrivateKey pk = some k → firstUserId pk = none →
        s.sign env = Res.error Err.noUserId) ∧
      (∀ k u, Next.err ∉ pk → firstPrivateKey pk = some k → firstUserId pk = some u →
        (k.Encrypted = true → env.decryptOk k s.info.DebSigningKeyPassword = false →
          s.sign env = Res.error Err.decrypt) ∧
        ((k.Encrypted = false ∨ env.decryptOk k s.info.DebSigningKeyPassword = true) →
          env.encodeOk k = false → s.sign env = Res.error Err.createSignature))) := by
  unfold signer.sign signer.parseKey
  rw [if_neg hk]
  constructor
  · intro h
    rw [h]
    rfl
  · intro pk h
    rw [h]
    simp only [parseLoop_spec]
    refine ⟨?_, ?_, ?_, ?_⟩
    · intro he
      simp [he, Res.bind]
    · intro he hp
      simp [he, hp, Res.bind]
    · intro k he hp hu
      simp [he, hp, hu, Res.bind]
    · intro k u he hp hu
      constructor
      · intro h1 h2
        simp [he, hp, hu, Res.bind, h1, h2]
      · intro h1 h2
        rcases h1 with h1 | h1 <;> simp [he, hp, hu, Res.bind, h1, h2]

/-- When the two archives are built and `sign` returns an error, `Deb.Package` returns an
error and has written no member `_gpgorigin`. -/
theorem Package_sign_error (env : Env) (fuel : Nat) (info : Info) (data md5sums control : Str)
    (instSize : Int) (e : Err)
    (hd : createDataTarGz env fuel info = Res.ok (data, md5sums, instSize))
    (hc : createControl env instSize md5sums info = Res.ok control)
    (hs : (signerOf env info control data).sign env = Res.error e) :
    (∃ e2, (Package env fuel info).2 = Res.error e2) ∧
      "_gpgorigin".toList ∉ memberNames (Package env fuel info).1.items := by
  unfold Package
  rw [hd]
  simp only [hc]
  exact writeDeb_sign_error env info control data e hs

/-! ## Examples -/

set_option maxRecDepth 100000 in
/-- The example of the specification: for the single mapping of `./bin/foo` to
`/usr/local/bin/foo` the entries are `usr/`, `usr/local/`, `usr/local/bin/` (directories)
and `usr/local/bin/foo` (the file), in this order. -/
theorem dataEntries_example :
    (dataEntries envDemo 20 infoExample).bind
        (fun st => Res.ok (st.out.map (fun e => (e.hdr.Name, e.hdr.Typeflag)))) =
      Res.ok [("usr/".toList, Typeflag.TypeDir), ("usr/local/".toList, Typeflag.TypeDir),
        ("usr/local/bin/".toList, Typeflag.TypeDir),
        ("usr/local/bin/foo".toList, Typeflag.TypeReg)] := by
  decide

set_option maxRecDepth 100000 in
/-- The ancestor directories of `/usr/local/bin/foo`. -/
theorem ancestors_example :
    ancestors "/usr/local/bin/foo".toList =
      ["usr".toList, "usr/local".toList, "usr/local/bin".toList] ∧
    ancestorDirs ["usr".toList, "local".toList, "bin".toList] =
      ["usr".toList, "usr/local".toList, "usr/local/bin".toList] := by
  decide

set_option maxRecDepth 100000 in
/-- An instance of `dataEntries_directories`: the manifest `infoFiles` in `envDemo`. -/
theorem dataEntries_directories_witness :
    ∃ st, dataEntries envDemo 40 infoFiles = Res.ok st ∧
      ((st.out.filter isDirEntry).map (fun e => e.hdr.Name)).Nodup ∧
      ∀ ms1 src dst ms2, infoFiles.Files ++ infoFiles.ConfigFiles = ms1 ++ (src, dst) :: ms2 →
        ∃ pre post, st.out = pre ++ copiedEntry envDemo (src, dst) ++ post ∧
          (∀ e ∈ copiedEntry envDemo (src, dst), isFileEntry e = true) ∧
          ((ancestors dst).map dirEntry).Sublist pre ∧
          ∀ a ∈ ancestors dst, st.out.count (dirEntry a) = 1 :=
  dataEntries_directories envDemo 40 infoFiles (fun _ => rfl)
    (by
      intro sd hsd
      simp only [infoFiles, List.cons_append, List.nil_append, List.mem_cons,
        List.not_mem_nil, or_false] at hsd
      rcases hsd with rfl | rfl
      · exact ⟨_, rfl, rfl⟩
      · exact ⟨_, rfl, rfl⟩)
    (by
      intro sd hsd
      simp only [infoFiles, List.cons_append, List.nil_append, List.mem_cons,
        List.not_mem_nil, or_false] at hsd
      rcases hsd with rfl | rfl
      · exact ⟨_, rfl, by decide, by decide, by decide⟩
      · exact ⟨_, rfl, by decide, by decide, by decide⟩)

/-- An instance of `pathsToCreate_relative`. -/
theorem pathsToCreate_relative_witness :
    pathsToCreate 20 "/usr/local/bin/foo".toList =
      Res.ok (rendersFrom (stackOf "usr/local/bin/foo".toList)).reverse :=
  pathsToCreate_relative '/' "usr/local/bin/foo".toList (by decide) 20 (by decide)

set_option maxRecDepth 100000 in
/-- An instance of `dataEntries_directories_clean`: the mapping of the example, whose
destination has the directory elements `usr`, `local`, `bin` and the file name `foo`. -/
theorem dataEntries_directories_clean_witness :
    ∃ st, dataEntries envDemo 40 infoExample = Res.ok st ∧
      ((st.out.filter isDirEntry).map (fun e => e.hdr.Name)).Nodup ∧
      ∃ pre post,
        st.out = pre ++ copiedEntry envDemo
          ("./bin/foo".toList, "/usr/local/bin/foo".toList) ++ post ∧
        ([dirEntry "usr".toList, dirEntry "usr/local".toList,
          dirEntry "usr/local/bin".toList]).Sublist pre ∧
        st.out.count (dirEntry "usr/local".toList) = 1 := by
  have hn : ∀ e ∈ ["usr".toList, "local".toList, "bin".toList] ++ ["foo".toList],
      normalElem e := by
    intro e he
    simp only [List.cons_append, List.nil_append, List.mem_cons, List.not_mem_nil,
      or_false] at he
    rcases he with rfl | rfl | rfl | rfl <;> (unfold normalElem; decide)
  obtain ⟨st, hst, hnd, hall⟩ := dataEntries_directories_clean envDemo 40 infoExample
    (fun _ => rfl)
    (by
      intro sd hsd
      simp only [infoExample, List.append_nil, List.mem_singleton] at hsd
      subst hsd
      exact ⟨_, rfl, rfl⟩)
    (by
      intro sd hsd
      simp only [infoExample, List.append_nil, List.mem_singleton] at hsd
      subst hsd
      exact ⟨["usr".toList, "local".toList, "bin".toList], "foo".toList, by decide, hn,
        by decide⟩)
  obtain ⟨pre, post, h1, _, h3, h4⟩ :=
    hall [] "./bin/foo".toList ["usr".toList, "local".toList, "bin".toList] "foo".toList []
      hn (by decide)
  exact ⟨st, hst, hnd, pre, post, h1, h3, h4 _ (by decide)⟩

end Deb

end Nfpm
